import Mathlib

/-!
# Overlapping block vector and black list

A shallow embedding of

* `src/dumux/linear/overlappingblockvector.hh` (`Dumux::OverlappingBlockVector`) and
* `src/ewoms/linear/blacklist.hh` (`Ewoms::Linear::BlackList`).

Conventions of the embedding.

* A block vector is a `List V`; the entry type `V` is the template parameter
  `FieldVector`, taken with exact arithmetic.
* A row access `(*this)[i]` outside the vector is undefined behaviour in the
  source; here it is the result `none`.  A receive for which no message ever
  arrives blocks for ever; this is `none` as well.
* The `Overlap` classes are template parameters: their member functions are
  fields of a structure, so every theorem holds for every overlap.
* Message passing is explicit: a method that sends returns the messages it
  sent, a method that receives is given the message that arrives from each peer.
-/

/-- The call `MPI_Recv` into a buffer of `count` elements: a longer message is a
truncation error (fatal); a shorter one fills a prefix of the buffer and leaves
the remaining slots as they were allocated, that is without a value. -/
def mpiRecv {α : Type} (count : Nat) (payload : List α) : Option (List α) :=
  if payload.length ≤ count then some payload else none

namespace Dumux

/-- The member functions of the template parameter `Overlap` that
`OverlappingBlockVector` calls.  `peerSet` and `domesticOverlapWithPeer` are
the containers in iteration order. -/
structure Overlap where
  /-- Number of rows owned by this process. -/
  numLocal : Nat
  /-- Number of rows of an overlapping vector. -/
  numDomestic : Nat
  /-- Number of other processes that share a row. -/
  numPeers : Int → Int
  /-- Ranks of the processes this process shares rows with. -/
  peerSet : List Int
  /-- Domestic rows exchanged with a peer. -/
  domesticOverlapWithPeer : Int → List Int
  /-- Domestic index to global index. -/
  domesticToGlobal : Int → Int
  /-- Global index to domestic index. -/
  globalToDomestic : Int → Int

/-- What one `sendEntries_` call puts on the wire for one peer: the three
`MPI_Bsend` payloads, in order. -/
structure PeerMsg (V : Type) where
  /-- First message: the announced number of rows. -/
  numOverlapRows : Nat
  /-- Second message: the global indices. -/
  indices : List Int
  /-- Third message: the values. -/
  values : List V
  deriving DecidableEq

/-- Reading `x[rowIdx]` with an `int` index: defined for `0 ≤ rowIdx < size`. -/
def getRow {V : Type} (x : List V) (rowIdx : Int) : Option V :=
  if 0 ≤ rowIdx then x[rowIdx.toNat]? else none

/-- Writing `x[rowIdx] = v` with an `int` index: defined for `0 ≤ rowIdx < size`. -/
def setRow {V : Type} (x : List V) (rowIdx : Int) (v : V) : Option (List V) :=
  if 0 ≤ rowIdx ∧ rowIdx.toNat < x.length then some (x.set rowIdx.toNat v) else none

section Vector

variable {V : Type} [AddCommMonoid V]

/-- The method `sendEntries_(peerRank)`: the count, then for the `i`-th row of
`domesticOverlapWithPeer(peerRank)` slot `i` of the index buffer gets the
global index of the row and slot `i` of the value buffer the row itself.
The loop state is `(i, indicesSendBuff, valuesSendBuff)`. -/
def sendEntries_ (o : Overlap) (self : List V) (peerRank : Int) : Option (PeerMsg V) :=
  let domesticOverlap := o.domesticOverlapWithPeer peerRank
  let numOverlapRows := domesticOverlap.length
  let indicesSendBuff : List Int := List.replicate numOverlapRows 0
  let valuesSendBuff : List V := List.replicate numOverlapRows 0
  (domesticOverlap.foldlM
    (fun (st : Nat × List Int × List V) (rowIdx : Int) =>
      (getRow self rowIdx).map fun v =>
        (st.1 + 1, st.2.1.set st.1 (o.domesticToGlobal rowIdx), st.2.2.set st.1 v))
    (0, indicesSendBuff, valuesSendBuff)).map
  fun st => { numOverlapRows := numOverlapRows, indices := st.2.1, values := st.2.2 }

/-- One pass of the loop body of `receiveAddEntries_`:
`(*this)[globalToDomestic(indicesRecvBuff[j])] += valuesRecvBuff[j]`. -/
def receiveAddStep (o : Overlap) (indicesRecvBuff : List Int) (valuesRecvBuff : List V)
    (self : List V) (j : Nat) : Option (List V) :=
  match indicesRecvBuff[j]?, valuesRecvBuff[j]? with
  | some g, some v =>
    let domRowIdx := o.globalToDomestic g
    match getRow self domRowIdx with
    | some old => setRow self domRowIdx (old + v)
    | none => none
  | _, _ => none

/-- The method `receiveAddEntries_(peerRank)`, given the message that arrives
from the peer (`none`: nothing ever arrives). -/
def receiveAddEntries_ (o : Overlap) (self : List V) (msg : Option (PeerMsg V)) :
    Option (List V) :=
  match msg with
  | none => none
  | some m =>
    match mpiRecv m.numOverlapRows m.indices, mpiRecv m.numOverlapRows m.values with
    | some indicesRecvBuff, some valuesRecvBuff =>
      (List.range m.numOverlapRows).foldlM (receiveAddStep o indicesRecvBuff valuesRecvBuff) self
    | _, _ => none

/-- The method `syncAdd()`: first `sendEntries_` for every peer, then
`receiveAddEntries_` for every peer, both in the order of `peerSet`.  Returns
the vector and the messages sent. -/
def syncAdd (o : Overlap) (self : List V) (recv : Int → Option (PeerMsg V)) :
    Option (List V × List (Int × PeerMsg V)) :=
  match o.peerSet.mapM
      (fun peerRank => (sendEntries_ o self peerRank).map fun m => (peerRank, m)) with
  | none => none
  | some sent =>
    (o.peerSet.foldlM (fun acc peerRank => receiveAddEntries_ o acc (recv peerRank)) self).map
      fun y => (y, sent)

/-- The two loops of `assignAdd(nbv)` that precede `syncAdd()`: rows
`[0, numLocal)` are copied from `nbv`, rows `[numLocal, numDomestic)` are set
to zero. -/
def assignRows (o : Overlap) (self : List V) (nbv : List V) : Option (List V) :=
  let numLocal := o.numLocal
  match (List.range numLocal).foldlM
      (fun acc (rowIdx : Nat) => (getRow nbv rowIdx).bind fun v => setRow acc rowIdx v) self with
  | none => none
  | some self1 =>
    let numDomestic := o.numDomestic
    (List.range' numLocal (numDomestic - numLocal)).foldlM
      (fun acc (rowIdx : Nat) => setRow acc rowIdx 0) self1

/-- The method `assignAdd(nbv)`: copy the local rows, zero the remaining
domestic rows, then `syncAdd()`. -/
def assignAdd (o : Overlap) (self : List V) (nbv : List V) (recv : Int → Option (PeerMsg V)) :
    Option (List V × List (Int × PeerMsg V)) :=
  match assignRows o self nbv with
  | none => none
  | some self2 => syncAdd o self2 recv

/-- The constructor `OverlappingBlockVector(nbv, overlap)`: a parent vector of
`overlap.numDomestic()` rows, then `assignAdd(nbv)`.  The rows of the fresh
parent are all written by `assignAdd` before they are read. -/
def construct (o : Overlap) (nbv : List V) (recv : Int → Option (PeerMsg V)) :
    Option (List V × List (Int × PeerMsg V)) :=
  assignAdd o (List.replicate o.numDomestic 0) nbv recv

/-- The method `assignTo(nbv) const`: copy the local rows into `nbv`.  The
loop state is the pair of the overlapping vector and `nbv`. -/
def assignTo (o : Overlap) (self : List V) (nbv : List V) : Option (List V × List V) :=
  let numLocal := o.numLocal
  (List.range numLocal).foldlM
    (fun (st : List V × List V) (rowIdx : Nat) =>
      (getRow st.1 rowIdx).bind fun v => (setRow st.2 rowIdx v).map fun nbv1 => (st.1, nbv1))
    (self, nbv)

/-- The effect of one received pair `(globalIndex, value)` on the vector. -/
def addRow (o : Overlap) (self : List V) (g : Int) (v : V) : Option (List V) :=
  match getRow self (o.globalToDomestic g) with
  | some old => setRow self (o.globalToDomestic g) (old + v)
  | none => none

/-- The values of one message whose positionally matching global index maps
to the domestic row `d`, in the order of the message. -/
def receivedFrom (o : Overlap) (m : PeerMsg V) (d : Int) : List V :=
  ((m.indices.zip m.values).filter fun iv => decide (o.globalToDomestic iv.1 = d)).map Prod.snd

/-- The values received for the domestic row `d` from all peers, in the order
of `peerSet`. -/
def received (o : Overlap) (msgs : Int → PeerMsg V) (d : Int) : List V :=
  o.peerSet.flatMap fun p => receivedFrom o (msgs p) d

/-- A run of several processes: process `r` is entry `r` of the list, its
overlap together with its overlapping vector.  The message that process `me`
receives from `peerRank` is the one `peerRank` sends to `me` from the vector it
holds when the round starts (it sends before it receives); a process that does
not have `me` in its peer set sends nothing. -/
def peerMsgFrom (world : List (Overlap × List V)) (me : Int) (peerRank : Int) :
    Option (PeerMsg V) :=
  match getRow world peerRank with
  | none => none
  | some (op, xp) => if me ∈ op.peerSet then sendEntries_ op xp me else none

/-- One round in which every process of the run calls `syncAdd()`. -/
def syncAddAll (world : List (Overlap × List V)) : Option (List (Overlap × List V)) :=
  (List.range world.length).mapM fun (me : Nat) =>
    match world[me]? with
    | none => none
    | some (o, x) => (syncAdd o x (peerMsgFrom world me)).map fun r => (o, r.1)

end Vector

section Average

variable {V : Type} [Field V]

/-- The method `syncAverage()`: `syncAdd()`, then every domestic row is
divided by `numPeers(i) + 1`. -/
def syncAverage (o : Overlap) (self : List V) (recv : Int → Option (PeerMsg V)) :
    Option (List V × List (Int × PeerMsg V)) :=
  match syncAdd o self recv with
  | none => none
  | some (self1, sent) =>
    let numDomestic := o.numDomestic
    ((List.range numDomestic).foldlM
      (fun acc (i : Nat) =>
        (getRow acc i).bind fun v => setRow acc i (v / ((o.numPeers i + 1 : Int) : V)))
      self1).map fun y => (y, sent)

end Average

end Dumux

namespace Ewoms.Linear

/-- The type `Index` of `overlaptypes.hh`. -/
abbrev Index := Int

/-- The type `ProcessRank` of `overlaptypes.hh`. -/
abbrev ProcessRank := Nat

/-- The operation `std::set<Index>::insert`, on the elements in iteration order. -/
def setInsert (a : Index) : List Index → List Index
  | [] => [a]
  | b :: l => if a < b then a :: b :: l else if a = b then b :: l else b :: setInsert a l

/-- The operation `std::map::find`, on the entries in iteration order: the
mapped value, or `none` for `end()`. -/
def mapFind {K β : Type} [DecidableEq K] (k : K) : List (K × β) → Option β
  | [] => none
  | e :: l => if k = e.1 then some e.2 else mapFind k l

/-- The assignment `m[k] = v` of a `std::map`, on the entries in iteration order. -/
def mapAssign {K β : Type} [LinearOrder K] (k : K) (v : β) : List (K × β) → List (K × β)
  | [] => [(k, v)]
  | e :: l =>
    if k < e.1 then (k, v) :: e :: l
    else if k = e.1 then (k, v) :: l
    else e :: mapAssign k v l

/-- The member functions of the template parameter `DomesticOverlap` that
`BlackList` calls. -/
structure DomesticOverlap where
  /-- Native index to domestic index. -/
  nativeToDomestic : Index → Index
  /-- Domestic index to global index. -/
  domesticToGlobal : Index → Index
  /-- Global index to domestic index. -/
  globalToDomestic : Index → Index

/-- The structure `BlackList::PeerBlackListedEntry`. -/
structure PeerBlackListedEntry where
  /-- The native index of the peer. -/
  nativeIndexOfPeer : Index
  /-- The native index of this process. -/
  myOwnNativeIndex : Index
  deriving DecidableEq

/-- The type `BlackList::PeerBlackList`. -/
abbrev PeerBlackList := List PeerBlackListedEntry

/-- The data members of `BlackList`.  An `MpiBuffer` is the list of its
elements; a count is a natural number. -/
structure BlackList where
  /-- The set of black-listed native indices. -/
  nativeBlackListedIndices_ : List Index
  /-- The resolved map from native to domestic indices. -/
  nativeToDomesticMap_ : List (Index × Index)
  /-- The send buffers of the counts, by peer. -/
  numGlobalIdxSendBuff_ : List (ProcessRank × List Nat)
  /-- The send buffers of the index pairs, by peer. -/
  globalIdxSendBuff_ : List (ProcessRank × List Index)
  /-- The declared correspondences, by peer. -/
  peerBlackLists_ : List (ProcessRank × PeerBlackList)
  deriving DecidableEq

/-- What one `sendGlobalIndices_` call puts on the wire for one peer. -/
structure IdxMsg where
  /-- First message: the number of pairs. -/
  numIndices : Nat
  /-- Second message: the pairs, `(global index, native index)` flattened. -/
  globalIdx : List Index
  deriving DecidableEq

/-- Writing slot `i` of a buffer: defined for `i < size`. -/
def setSlot {α : Type} (buf : List α) (i : Nat) (v : α) : Option (List α) :=
  if i < buf.length then some (buf.set i v) else none

namespace BlackList

/-- The constructor `BlackList()`. -/
def empty : BlackList :=
  { nativeBlackListedIndices_ := []
    nativeToDomesticMap_ := []
    numGlobalIdxSendBuff_ := []
    globalIdxSendBuff_ := []
    peerBlackLists_ := [] }

/-- The method `hasIndex(nativeIdx)`. -/
def hasIndex (bl : BlackList) (nativeIdx : Index) : Bool :=
  decide (bl.nativeBlackListedIndices_.count nativeIdx > 0)

/-- The method `addIndex(nativeIdx)`. -/
def addIndex (bl : BlackList) (nativeIdx : Index) : BlackList :=
  { bl with nativeBlackListedIndices_ := setInsert nativeIdx bl.nativeBlackListedIndices_ }

/-- The method `nativeToDomestic(nativeIdx)`. -/
def nativeToDomestic (bl : BlackList) (nativeIdx : Index) : Index :=
  match mapFind nativeIdx bl.nativeToDomesticMap_ with
  | none => -1
  | some d => d

/-- The method `setPeerList(peerRank, peerBlackList)`. -/
def setPeerList (bl : BlackList) (peerRank : ProcessRank) (peerBlackList : PeerBlackList) :
    BlackList :=
  { bl with peerBlackLists_ := mapAssign peerRank peerBlackList bl.peerBlackLists_ }

/-- One pass of the loop body of `sendGlobalIndices_`: the slots `2*i` and
`2*i + 1` of the index buffer are written. -/
def sendGlobalStep (domesticOverlap : DomesticOverlap) (peerIndices : PeerBlackList)
    (idxBuff : List Index) (i : Nat) : Option (List Index) :=
  match peerIndices[i]? with
  | none => none
  | some e =>
    let myNativeIdx := e.myOwnNativeIndex
    let myDomesticIdx := domesticOverlap.nativeToDomestic myNativeIdx
    match setSlot idxBuff (2 * i + 0) (domesticOverlap.domesticToGlobal myDomesticIdx) with
    | none => none
    | some idxBuff1 => setSlot idxBuff1 (2 * i + 1) e.nativeIndexOfPeer

/-- The method `sendGlobalIndices_(peerRank, peerIndices, domesticOverlap)`: returns the
black list with its two send buffers for the peer, and the message sent. -/
def sendGlobalIndices_ (bl : BlackList) (peerRank : ProcessRank) (peerIndices : PeerBlackList)
    (domesticOverlap : DomesticOverlap) : Option (BlackList × IdxMsg) :=
  let numIdxBuff : List Nat := [peerIndices.length]
  let idxBuff0 : List Index := List.replicate (2 * peerIndices.length) 0
  match (List.range peerIndices.length).foldlM (sendGlobalStep domesticOverlap peerIndices)
      idxBuff0 with
  | none => none
  | some idxBuff =>
    some
      ({ bl with
          numGlobalIdxSendBuff_ := mapAssign peerRank numIdxBuff bl.numGlobalIdxSendBuff_
          globalIdxSendBuff_ := mapAssign peerRank idxBuff bl.globalIdxSendBuff_ },
        { numIndices := peerIndices.length, globalIdx := idxBuff })

/-- One pass of the loop body of `receiveGlobalIndices_`. -/
def receiveGlobalStep (domesticOverlap : DomesticOverlap) (globalIdxBuf : List Index)
    (bl : BlackList) (i : Nat) : Option BlackList :=
  match globalIdxBuf[2 * i + 0]?, globalIdxBuf[2 * i + 1]? with
  | some globalIdx, some nativeIdx =>
    some { bl with
      nativeToDomesticMap_ :=
        mapAssign nativeIdx (domesticOverlap.globalToDomestic globalIdx) bl.nativeToDomesticMap_ }
  | _, _ => none

/-- The method `receiveGlobalIndices_(peerRank, domesticOverlap)`, given the message that
arrives from the peer (`none`: nothing ever arrives). -/
def receiveGlobalIndices_ (bl : BlackList) (domesticOverlap : DomesticOverlap)
    (msg : Option IdxMsg) : Option BlackList :=
  match msg with
  | none => none
  | some m =>
    let numIndices := m.numIndices
    match mpiRecv (2 * numIndices) m.globalIdx with
    | none => none
    | some globalIdxBuf =>
      (List.range numIndices).foldlM (receiveGlobalStep domesticOverlap globalIdxBuf) bl

/-- The first loop of `updateNativeToDomesticMap`: `sendGlobalIndices_` for
every entry of `peerBlackLists_` in iteration order.  Returns the black list
and the messages sent, in order. -/
def sendLoop (bl : BlackList) (domesticOverlap : DomesticOverlap) :
    Option (BlackList × List (ProcessRank × IdxMsg)) :=
  bl.peerBlackLists_.foldlM
    (fun (st : BlackList × List (ProcessRank × IdxMsg)) (pl : ProcessRank × PeerBlackList) =>
      (sendGlobalIndices_ st.1 pl.1 pl.2 domesticOverlap).map fun r =>
        (r.1, st.2 ++ [(pl.1, r.2)]))
    (bl, [])

/-- The method `updateNativeToDomesticMap(domesticOverlap)` with `HAVE_MPI`:
the send loop, the receive loop and the loop that waits for the sends (it
looks up both send buffers of every peer with `at`), each over
`peerBlackLists_` in iteration order.  Returns the black list and the
messages sent. -/
def updateNativeToDomesticMap (bl : BlackList) (domesticOverlap : DomesticOverlap)
    (recv : ProcessRank → Option IdxMsg) : Option (BlackList × List (ProcessRank × IdxMsg)) :=
  match sendLoop bl domesticOverlap with
  | none => none
  | some (bl1, sent) =>
    match bl.peerBlackLists_.foldlM
        (fun (b : BlackList) (pl : ProcessRank × PeerBlackList) =>
          receiveGlobalIndices_ b domesticOverlap (recv pl.1))
        bl1 with
    | none => none
    | some bl2 =>
      if bl.peerBlackLists_.all fun pl =>
          (mapFind pl.1 bl2.numGlobalIdxSendBuff_).isSome
            && (mapFind pl.1 bl2.globalIdxSendBuff_).isSome
      then some (bl2, sent)
      else none

/-- The messages a black list sends in `updateNativeToDomesticMap`. -/
def sentMessages (bl : BlackList) (domesticOverlap : DomesticOverlap) :
    Option (List (ProcessRank × IdxMsg)) :=
  (sendLoop bl domesticOverlap).map Prod.snd

/-- The message that arrives at `me` from a process that sent `sent`: the
first one addressed to `me`. -/
def messageFor (sent : Option (List (ProcessRank × IdxMsg))) (me : ProcessRank) :
    Option IdxMsg :=
  match sent with
  | none => none
  | some l => mapFind me l

/-- Two processes `rankA` and `rankB` run `updateNativeToDomesticMap`, each
receiving what the other sends to it; no other process exists. -/
def updateBoth (rankA rankB : ProcessRank) (blA : BlackList) (ovA : DomesticOverlap)
    (blB : BlackList) (ovB : DomesticOverlap) : Option (BlackList × BlackList) :=
  match updateNativeToDomesticMap blA ovA
      (fun p => if p = rankB then messageFor (sentMessages blB ovB) rankA else none),
    updateNativeToDomesticMap blB ovB
      (fun p => if p = rankA then messageFor (sentMessages blA ovA) rankB else none) with
  | some a, some b => some (a.1, b.1)
  | _, _ => none

/-- The content of the index buffer that `sendGlobalIndices_` fills for the
list `peerIndices`: for each entry, in list order, the global index of
`myOwnNativeIndex` followed by `nativeIndexOfPeer`. -/
def sentPairs (domesticOverlap : DomesticOverlap) (peerIndices : PeerBlackList) : List Index :=
  peerIndices.flatMap fun e =>
    [domesticOverlap.domesticToGlobal (domesticOverlap.nativeToDomestic e.myOwnNativeIndex),
      e.nativeIndexOfPeer]

/-- The effect of one received pair `(globalIdx, nativeIdx)` on the black list. -/
def resolvePair (domesticOverlap : DomesticOverlap) (bl : BlackList) (gn : Index × Index) :
    BlackList :=
  { bl with
    nativeToDomesticMap_ :=
      mapAssign gn.2 (domesticOverlap.globalToDomestic gn.1) bl.nativeToDomesticMap_ }

/-- A declaration call on a black list. -/
inductive DeclCall where
  /-- The call `addIndex(nativeIdx)`. -/
  | addIndex (nativeIdx : Index)
  /-- The call `setPeerList(peerRank, peerBlackList)`. -/
  | setPeerList (peerRank : ProcessRank) (peerBlackList : PeerBlackList)

/-- The black list after one declaration call. -/
def declare (bl : BlackList) : DeclCall → BlackList
  | DeclCall.addIndex nativeIdx => bl.addIndex nativeIdx
  | DeclCall.setPeerList peerRank peerBlackList => bl.setPeerList peerRank peerBlackList

end BlackList

end Ewoms.Linear

namespace Dumux

/-- The rows a process sends lie inside a vector of `n` rows. -/
def SendRowsIn (o : Overlap) (n : Nat) : Prop :=
  ∀ p ∈ o.peerSet, ∀ d ∈ o.domesticOverlapWithPeer p, 0 ≤ d ∧ d < (n : Int)

instance (o : Overlap) (n : Nat) : Decidable (SendRowsIn o n) := by
  unfold SendRowsIn
  infer_instance

/-- The message of every peer has an index list and a value list of the
announced length, and every received global index maps to one of the `n` rows. -/
def MsgsWellFormed {V : Type} (o : Overlap) (msgs : Int → PeerMsg V) (n : Nat) : Prop :=
  ∀ p ∈ o.peerSet,
    (msgs p).indices.length = (msgs p).numOverlapRows ∧
    (msgs p).values.length = (msgs p).numOverlapRows ∧
    ∀ g ∈ (msgs p).indices, 0 ≤ o.globalToDomestic g ∧ o.globalToDomestic g < (n : Int)

instance {V : Type} (o : Overlap) (msgs : Int → PeerMsg V) (n : Nat) :
    Decidable (MsgsWellFormed o msgs n) := by
  unfold MsgsWellFormed
  infer_instance

/-- Two processes that both own the border row with global index 1: process 0
has the global indices 0 and 1. -/
def twoRank0 : Overlap where
  numLocal := 2
  numDomestic := 2
  numPeers := fun d => if d = 1 then 1 else 0
  peerSet := [1]
  domesticOverlapWithPeer := fun p => if p = 1 then [1] else []
  domesticToGlobal := fun d => d
  globalToDomestic := fun g => if g = 0 ∨ g = 1 then g else -1

/-- Process 1 of the two has the global indices 1 and 2. -/
def twoRank1 : Overlap where
  numLocal := 2
  numDomestic := 2
  numPeers := fun d => if d = 0 then 1 else 0
  peerSet := [0]
  domesticOverlapWithPeer := fun p => if p = 0 then [0] else []
  domesticToGlobal := fun d => d + 1
  globalToDomestic := fun g => if g = 1 ∨ g = 2 then g - 1 else -1

/-- Three processes in a line, global indices 0 to 5, two owned by each, with
an overlap of one row: process 0 has the rows `[0, 1 | 2]`. -/
def line0 : Overlap where
  numLocal := 2
  numDomestic := 3
  numPeers := fun d => if d = 1 ∨ d = 2 then 1 else 0
  peerSet := [1]
  domesticOverlapWithPeer := fun p => if p = 1 then [1, 2] else []
  domesticToGlobal := fun d => d
  globalToDomestic := fun g => if 0 ≤ g ∧ g ≤ 2 then g else -1

/-- Process 1 of the line has the rows `[2, 3 | 1, 4]` and overlaps both
neighbours. -/
def line1 : Overlap where
  numLocal := 2
  numDomestic := 4
  numPeers := fun _ => 1
  peerSet := [0, 2]
  domesticOverlapWithPeer := fun p => if p = 0 then [0, 2] else if p = 2 then [1, 3] else []
  domesticToGlobal := fun d => if d = 0 then 2 else if d = 1 then 3 else if d = 2 then 1 else 4
  globalToDomestic := fun g =>
    if g = 2 then 0 else if g = 3 then 1 else if g = 1 then 2 else if g = 4 then 3 else -1

/-- Process 2 of the line has the rows `[4, 5 | 3]`. -/
def line2 : Overlap where
  numLocal := 2
  numDomestic := 3
  numPeers := fun d => if d = 0 ∨ d = 2 then 1 else 0
  peerSet := [1]
  domesticOverlapWithPeer := fun p => if p = 1 then [0, 2] else []
  domesticToGlobal := fun d => if d = 0 then 4 else if d = 1 then 5 else 3
  globalToDomestic := fun g => if g = 4 then 0 else if g = 5 then 1 else if g = 3 then 2 else -1

/-- The line of three processes with every domestic entry equal to 1. -/
def lineWorld : List (Overlap × List ℚ) :=
  [(line0, [1, 1, 1]), (line1, [1, 1, 1, 1]), (line2, [1, 1, 1])]

/-- The messages that process 1 of the line receives in a round that starts
from `lineWorld`. -/
def lineMsgs1 (p : Int) : PeerMsg ℚ :=
  (peerMsgFrom lineWorld 1 p).getD { numOverlapRows := 0, indices := [], values := [] }

/-- The line of three processes with every domestic entry equal to 1, with
integer entries. -/
def lineWorldInt : List (Overlap × List Int) :=
  [(line0, [1, 1, 1]), (line1, [1, 1, 1, 1]), (line2, [1, 1, 1])]

/-- The copied-and-zero-filled arrays of the two processes that share a border
row, for the native vectors `[5, 1]` and `[1, 7]`. -/
def twoRankWorld : List (Overlap × List Int) :=
  [(twoRank0, [5, 1]), (twoRank1, [1, 7])]

/-- The messages that process 0 of the two receives in a round that starts
from `twoRankWorld`. -/
def twoRankMsgs0 (p : Int) : PeerMsg Int :=
  (peerMsgFrom twoRankWorld 0 p).getD { numOverlapRows := 0, indices := [], values := [] }

/-- A message with the single pair `(global index 1, value 7)`. -/
def sevenMsg (_ : Int) : PeerMsg Int :=
  { numOverlapRows := 1, indices := [1], values := [7] }

/-- The message process 0 of the line receives from process 1 when process 1
is built from the native vector `[10, 20]`: its rows with the global indices 2
and 1, the second one an overlap row that it has set to zero. -/
def line0Msgs (_ : Int) : PeerMsg Int :=
  { numOverlapRows := 2, indices := [2, 1], values := [10, 0] }

/-- A message for process 0 of the line with rational values. -/
def line0MsgsRat (_ : Int) : PeerMsg ℚ :=
  { numOverlapRows := 2, indices := [1, 2], values := [2, 4] }

end Dumux

namespace Ewoms.Linear

/-- Two processes: process 0 owns the global indices 0 to 4, process 1 owns 5
to 9.  The overlap of process 0 has the domestic rows 0 to 4 for its own
indices and the domestic row 5 for the global index 9; its native indices are
its domestic ones. -/
def reconOverlap0 : DomesticOverlap where
  nativeToDomestic := fun n => n
  domesticToGlobal := fun d => if d = 5 then 9 else d
  globalToDomestic := fun g => if 0 ≤ g ∧ g ≤ 4 then g else if g = 9 then 5 else -1

/-- The overlap of process 1: the native indices 5 to 9 are the global ones,
the domestic rows 0 to 4 hold them in order. -/
def reconOverlap1 : DomesticOverlap where
  nativeToDomestic := fun n => n - 5
  domesticToGlobal := fun d => d + 5
  globalToDomestic := fun g => if 5 ≤ g ∧ g ≤ 9 then g - 5 else -1

/-- The black list of process 0: its native index 5 is black-listed and
declared to correspond to the native index 9 of process 1. -/
def reconBlackList0 : BlackList :=
  (BlackList.empty.addIndex 5).setPeerList 1 [{ nativeIndexOfPeer := 9, myOwnNativeIndex := 5 }]

/-- The black list of process 1: its native index 9 is black-listed and
declared to correspond to the native index 5 of process 0. -/
def reconBlackList1 : BlackList :=
  (BlackList.empty.addIndex 9).setPeerList 0 [{ nativeIndexOfPeer := 5, myOwnNativeIndex := 9 }]

end Ewoms.Linear

namespace Dumux

/-- The receive loop of `receiveAddEntries_` stopped after its first `k`
passes: the vector as it stands when pass `k` is about to start. -/
def receiveAddPasses {V : Type} [AddCommMonoid V] (o : Overlap) (self : List V) (m : PeerMsg V)
    (k : Nat) : Option (List V) :=
  match mpiRecv m.numOverlapRows m.indices, mpiRecv m.numOverlapRows m.values with
  | some indicesRecvBuff, some valuesRecvBuff =>
    (List.range (min k m.numOverlapRows)).foldlM
      (receiveAddStep o indicesRecvBuff valuesRecvBuff) self
  | _, _ => none

/-- The message for a peer as the claim on the send side describes it: the
number of rows of `domesticOverlapWithPeer(peerRank)`, then for each row in
order its global index and the value the vector `x` holds in it. -/
def snapshotMsg {V : Type} [AddCommMonoid V] (o : Overlap) (x : List V) (peerRank : Int) :
    PeerMsg V :=
  { numOverlapRows := (o.domesticOverlapWithPeer peerRank).length
    indices := (o.domesticOverlapWithPeer peerRank).map o.domesticToGlobal
    values := (o.domesticOverlapWithPeer peerRank).map fun d => (getRow x d).getD 0 }

/-- A message that announces two rows and carries one. -/
def shortMsg : PeerMsg Int :=
  { numOverlapRows := 2, indices := [1], values := [7] }

/-- A message that announces one row and carries two. -/
def longMsg : PeerMsg Int :=
  { numOverlapRows := 1, indices := [1, 0], values := [7, 9] }

/-- Process 1 of the line with its two peers in the other order. -/
def line1Swapped : Overlap :=
  { line1 with peerSet := [2, 0] }

/-- Messages for process 1 of the line: process 0 sends 10 and 20 for the
global indices 2 and 1, process 2 sends 30 and 40 for 3 and 4. -/
def line1Msgs (p : Int) : PeerMsg Int :=
  if p = 0 then { numOverlapRows := 2, indices := [2, 1], values := [10, 20] }
  else { numOverlapRows := 2, indices := [3, 4], values := [30, 40] }

end Dumux

namespace Ewoms.Linear

namespace BlackList

/-- The receive loop of `receiveGlobalIndices_` stopped after its first `k`
passes: the black list as it stands when pass `k` is about to start. -/
def receiveGlobalPasses (bl : BlackList) (domesticOverlap : DomesticOverlap) (m : IdxMsg)
    (k : Nat) : Option BlackList :=
  match mpiRecv (2 * m.numIndices) m.globalIdx with
  | none => none
  | some globalIdxBuf =>
    (List.range (min k m.numIndices)).foldlM (receiveGlobalStep domesticOverlap globalIdxBuf) bl

end BlackList

/-- An index message that announces two pairs and carries one. -/
def shortIdxMsg : IdxMsg :=
  { numIndices := 2, globalIdx := [9, 5] }

/-- An index message that announces one pair and carries two. -/
def longIdxMsg : IdxMsg :=
  { numIndices := 1, globalIdx := [9, 5, 8, 6] }

/-- A black list of process 0 that declares its native index 5 to process 1. -/
def skewBlackList0 : BlackList :=
  BlackList.empty.setPeerList 1 [{ nativeIndexOfPeer := 9, myOwnNativeIndex := 5 }]

/-- A black list of process 1 whose list for process 0 names the native index
6 of process 0, which process 0 has not declared. -/
def skewBlackList1 : BlackList :=
  BlackList.empty.setPeerList 0 [{ nativeIndexOfPeer := 6, myOwnNativeIndex := 9 }]

/-- The native indices that a received message names: the slot `2*i + 1` of
the payload for every pass `i` of the loop of `receiveGlobalIndices_`. -/
def namesOf (m : IdxMsg) : List Index :=
  (List.range m.numIndices).filterMap fun i => m.globalIdx[2 * i + 1]?

namespace BlackList

/-- The native indices named by the messages that one call of
`updateNativeToDomesticMap` receives: those of the message of every peer the
black list holds a list for. -/
def receivedNames (bl : BlackList) (recv : ProcessRank → Option IdxMsg) : List Index :=
  bl.peerBlackLists_.flatMap fun pl =>
    match recv pl.1 with
    | none => []
    | some m => namesOf m

/-- A call of a public mutating method of `BlackList`: a declaration, or
`updateNativeToDomesticMap(domesticOverlap)` together with the messages that
arrive from the peers during the call. -/
inductive Call where
  /-- The call `addIndex` or `setPeerList`. -/
  | declare (c : DeclCall)
  /-- The call `updateNativeToDomesticMap`. -/
  | update (domesticOverlap : DomesticOverlap) (recv : ProcessRank → Option IdxMsg)

/-- The black list after one call; `none` when the call does not return. -/
def step (bl : BlackList) : Call → Option BlackList
  | Call.declare c => some (bl.declare c)
  | Call.update domesticOverlap recv =>
    (updateNativeToDomesticMap bl domesticOverlap recv).map Prod.fst

/-- The black list after a sequence of calls, each of which returns. -/
def run (bl : BlackList) (calls : List Call) : Option BlackList :=
  calls.foldlM step bl

/-- The native indices named by the messages received in one call. -/
def receivedBy (bl : BlackList) : Call → List Index
  | Call.declare _ => []
  | Call.update _ recv => receivedNames bl recv

/-- The native indices named by the messages received in the
`updateNativeToDomesticMap` calls of a sequence of calls. -/
def namedInRun (bl : BlackList) : List Call → List Index
  | [] => []
  | c :: cs =>
    receivedBy bl c ++
      match step bl c with
      | none => []
      | some bl1 => namedInRun bl1 cs

end BlackList

/-- The messages that arrive at process 0 in a run with two peers: process 1
sends the pair `(9, 5)`, process 2 sends the pair `(3, 4)`. -/
def twoPeerRecv (p : ProcessRank) : Option IdxMsg :=
  if p = 1 then some { numIndices := 1, globalIdx := [9, 5] }
  else if p = 2 then some { numIndices := 1, globalIdx := [3, 4] }
  else none

/-- A sequence of calls on process 0: two declarations, lists for the peers 1
and 2, the exchange with both, and one more declaration. -/
def twoPeerCalls : List BlackList.Call :=
  [BlackList.Call.declare (BlackList.DeclCall.addIndex 5),
    BlackList.Call.declare (BlackList.DeclCall.addIndex 4),
    BlackList.Call.declare
      (BlackList.DeclCall.setPeerList 1 [{ nativeIndexOfPeer := 9, myOwnNativeIndex := 5 }]),
    BlackList.Call.declare
      (BlackList.DeclCall.setPeerList 2 [{ nativeIndexOfPeer := 7, myOwnNativeIndex := 4 }]),
    BlackList.Call.update reconOverlap0 twoPeerRecv,
    BlackList.Call.declare (BlackList.DeclCall.addIndex 8)]

/-- The message that arrives at process 0 from process 1 when process 1 holds
the black list `skewBlackList1`. -/
def skewRecv (p : ProcessRank) : Option IdxMsg :=
  if p = 1 then BlackList.messageFor (BlackList.sentMessages skewBlackList1 reconOverlap1) 0
  else none

end Ewoms.Linear

namespace Dumux

theorem getRow_eq_some_iff {V : Type} (x : List V) (i : Int) (v : V) :
    getRow x i = some v ↔ 0 ≤ i ∧ x[i.toNat]? = some v := by
  unfold getRow; split <;> simp [*]

theorem getRow_isSome {V : Type} (x : List V) (i : Int) (h0 : 0 ≤ i) (h1 : i < x.length) :
    ∃ v, getRow x i = some v := by
  have : i.toNat < x.length := by omega
  exact ⟨x[i.toNat], by simp [getRow, h0, List.getElem?_eq_getElem this]⟩

theorem setRow_eq_some {V : Type} (x : List V) (i : Int) (v : V) (h0 : 0 ≤ i) (h1 : i < x.length) :
    setRow x i v = some (x.set i.toNat v) := by
  have : i.toNat < x.length := by omega
  simp [setRow, h0, this]

theorem getRow_set {V : Type} (x : List V) (i : Int) (v : V) (h0 : 0 ≤ i) (d : Int) :
    getRow (x.set i.toNat v) d = if d = i then (getRow x d).map (fun _ => v) else getRow x d := by
  unfold getRow
  by_cases hd : 0 ≤ d
  · simp only [hd, if_true]
    by_cases hdi : d = i
    · subst hdi
      simp [List.getElem?_set]
      by_cases h : d.toNat < x.length
      · simp [h, List.getElem?_eq_getElem h]
      · simp [h, List.getElem?_eq_none (Nat.le_of_not_lt h)]
    · have : i.toNat ≠ d.toNat := by omega
      simp [hdi, List.getElem?_set, this]
  · simp [hd]

theorem range_fold_eq_zip_fold {V : Type} [AddCommMonoid V] (o : Overlap) (is : List Int) (vs : List V)
    (h : is.length = vs.length) (x : List V) :
    (List.range is.length).foldlM (receiveAddStep o is vs) x
      = (is.zip vs).foldlM (fun acc iv => addRow o acc iv.1 iv.2) x := by
  induction is generalizing vs x with
  | nil => simp
  | cons i is ih =>
    cases vs with
    | nil => simp at h
    | cons v vs =>
      simp only [List.length_cons, List.range_succ_eq_map, List.foldlM_cons, List.zip_cons_cons,
        List.foldlM_map]
      have h0 : receiveAddStep o (i :: is) (v :: vs) x 0 = addRow o x i v := by
        simp [receiveAddStep, addRow]
      rw [h0]
      congr 1
      funext y
      have hs : (fun (acc : List V) (j : Nat) => receiveAddStep o (i :: is) (v :: vs) acc (Nat.succ j))
          = receiveAddStep o is vs := by
        funext acc j
        simp [receiveAddStep]
      rw [hs]
      exact ih vs (by simpa using h) y

theorem addRow_spec {V : Type} [AddCommMonoid V] (o : Overlap) (x : List V) (g : Int) (v : V)
    (h0 : 0 ≤ o.globalToDomestic g) (h1 : o.globalToDomestic g < x.length) :
    ∃ y, addRow o x g v = some y ∧ y.length = x.length ∧
      ∀ d, getRow y d = (getRow x d).map fun a => if d = o.globalToDomestic g then a + v else a := by
  obtain ⟨old, hold⟩ := getRow_isSome x _ h0 h1
  refine ⟨x.set (o.globalToDomestic g).toNat (old + v), ?_, by simp, ?_⟩
  · simp [addRow, hold, setRow_eq_some x _ _ h0 h1]
  · intro d
    rw [getRow_set x _ _ h0]
    by_cases hd : d = o.globalToDomestic g
    · subst hd
      simp [hold]
    · simp [hd]

theorem zip_fold_spec {V : Type} [AddCommMonoid V] (o : Overlap) (pairs : List (Int × V)) (x : List V)
    (hall : ∀ iv ∈ pairs, 0 ≤ o.globalToDomestic iv.1 ∧ o.globalToDomestic iv.1 < x.length) :
    ∃ y, pairs.foldlM (fun acc iv => addRow o acc iv.1 iv.2) x = some y ∧ y.length = x.length ∧
      ∀ d, getRow y d = (getRow x d).map fun a =>
        a + ((pairs.filter fun iv => decide (o.globalToDomestic iv.1 = d)).map Prod.snd).sum := by
  induction pairs generalizing x with
  | nil => exact ⟨x, by simp, rfl, by intro d; simp⟩
  | cons iv pairs ih =>
    obtain ⟨hiv, hrest⟩ := List.forall_mem_cons.mp hall
    obtain ⟨y1, hy1, hlen1, hrow1⟩ := addRow_spec o x iv.1 iv.2 hiv.1 hiv.2
    obtain ⟨y, hy, hlen, hrow⟩ := ih y1 (by rw [hlen1]; exact hrest)
    refine ⟨y, ?_, by rw [hlen, hlen1], ?_⟩
    · simp [List.foldlM_cons, hy1, hy]
    · intro d
      rw [hrow d, hrow1 d]
      cases getRow x d with
      | none => simp
      | some a =>
        by_cases hd : o.globalToDomestic iv.1 = d
        · simp [hd, List.filter_cons, add_assoc]
        · have hd2 : ¬ d = o.globalToDomestic iv.1 := fun h => hd h.symm
          simp [hd, hd2, List.filter_cons]

theorem receiveAddEntries__spec {V : Type} [AddCommMonoid V] (o : Overlap) (x : List V) (m : PeerMsg V)
    (hi : m.indices.length = m.numOverlapRows) (hv : m.values.length = m.numOverlapRows)
    (hall : ∀ g ∈ m.indices, 0 ≤ o.globalToDomestic g ∧ o.globalToDomestic g < x.length) :
    ∃ y, receiveAddEntries_ o x (some m) = some y ∧ y.length = x.length ∧
      ∀ d, getRow y d = (getRow x d).map fun a => a + (receivedFrom o m d).sum := by
  have hpairs : ∀ iv ∈ m.indices.zip m.values,
      0 ≤ o.globalToDomestic iv.1 ∧ o.globalToDomestic iv.1 < x.length := by
    intro iv hiv
    exact hall iv.1 (List.of_mem_zip hiv).1
  obtain ⟨y, hy, hlen, hrow⟩ := zip_fold_spec o (m.indices.zip m.values) x hpairs
  refine ⟨y, ?_, hlen, hrow⟩
  have hfold := range_fold_eq_zip_fold o m.indices m.values (hi.trans hv.symm) x
  rw [hi] at hfold
  simp [receiveAddEntries_, mpiRecv, hi, hv, hfold, hy]

theorem recv_fold_spec {V : Type} [AddCommMonoid V] (o : Overlap) (peers : List Int) (msgs : Int → PeerMsg V) (x : List V)
    (hi : ∀ p ∈ peers, (msgs p).indices.length = (msgs p).numOverlapRows)
    (hv : ∀ p ∈ peers, (msgs p).values.length = (msgs p).numOverlapRows)
    (hall : ∀ p ∈ peers, ∀ g ∈ (msgs p).indices,
      0 ≤ o.globalToDomestic g ∧ o.globalToDomestic g < x.length) :
    ∃ y, peers.foldlM (fun acc p => receiveAddEntries_ o acc (some (msgs p))) x = some y ∧
      y.length = x.length ∧
      ∀ d, getRow y d = (getRow x d).map fun a =>
        a + (peers.flatMap fun p => receivedFrom o (msgs p) d).sum := by
  induction peers generalizing x with
  | nil => exact ⟨x, by simp, rfl, by intro d; simp⟩
  | cons p peers ih =>
    obtain ⟨y1, hy1, hlen1, hrow1⟩ := receiveAddEntries__spec o x (msgs p)
      (hi p (List.mem_cons_self _ _)) (hv p (List.mem_cons_self _ _))
      (hall p (List.mem_cons_self _ _))
    obtain ⟨y, hy, hlen, hrow⟩ := ih y1
      (fun q hq => hi q (List.mem_cons_of_mem _ hq))
      (fun q hq => hv q (List.mem_cons_of_mem _ hq))
      (fun q hq => by rw [hlen1]; exact hall q (List.mem_cons_of_mem _ hq))
    refine ⟨y, ?_, by rw [hlen, hlen1], ?_⟩
    · simp [List.foldlM_cons, hy1, hy]
    · intro d
      rw [hrow d, hrow1 d]
      cases getRow x d with
      | none => simp
      | some a => simp [add_assoc]

theorem take_succ_set {α : Type} (l : List α) (i : Nat) (a : α) (h : i < l.length) :
    (l.set i a).take (i + 1) = l.take i ++ [a] := by
  have ht : (l.set i a).take i = l.take i :=
    List.ext_getElem? fun j => by
      rw [List.getElem?_take, List.getElem?_take]
      split
      · next hj => rw [List.getElem?_set_ne (by omega)]
      · rfl
  rw [List.take_succ, List.getElem?_set_self h, ht]
  simp

theorem send_fold_eq {V : Type} (o : Overlap) (x : List V) (rows : List Int) (i : Nat)
    (ib : List Int) (vb : List V) (hib : ib.length = i + rows.length)
    (hvb : vb.length = i + rows.length) :
    rows.foldlM
      (fun (st : Nat × List Int × List V) (rowIdx : Int) =>
        (getRow x rowIdx).map fun v =>
          (st.1 + 1, st.2.1.set st.1 (o.domesticToGlobal rowIdx), st.2.2.set st.1 v))
      (i, ib, vb)
    = (rows.mapM (getRow x)).map fun vals =>
        (i + rows.length, ib.take i ++ rows.map o.domesticToGlobal, vb.take i ++ vals) := by
  induction rows generalizing i ib vb with
  | nil =>
    simp only [List.length_nil, Nat.add_zero] at hib hvb
    rw [List.foldlM_nil, List.mapM_nil]
    subst hib
    simp [List.take_of_length_le (Nat.le_of_eq hvb)]
  | cons r rs ih =>
    simp only [List.length_cons] at hib hvb
    rw [List.foldlM_cons, List.mapM_cons]
    cases hr : getRow x r with
    | none => simp
    | some v =>
      simp only [Option.map_some', Option.bind_eq_bind, Option.some_bind]
      rw [ih (i + 1) _ _ (by simp; omega) (by simp; omega)]
      rw [take_succ_set ib i _ (by omega), take_succ_set vb i _ (by omega)]
      cases rs.mapM (getRow x) with
      | none => rfl
      | some vals =>
        simp only [Option.map_some', List.map_cons, List.append_assoc, List.singleton_append,
          Option.some_bind, List.length_cons]
        show some _ = some _
        congr 2
        omega

theorem sendEntries__eq {V : Type} [AddCommMonoid V] (o : Overlap) (x : List V) (peerRank : Int) :
    sendEntries_ o x peerRank
      = ((o.domesticOverlapWithPeer peerRank).mapM (getRow x)).map fun vals =>
          { numOverlapRows := (o.domesticOverlapWithPeer peerRank).length
            indices := (o.domesticOverlapWithPeer peerRank).map o.domesticToGlobal
            values := vals } := by
  unfold sendEntries_
  simp only []
  rw [send_fold_eq o x _ 0 _ _ (by simp) (by simp)]
  cases (o.domesticOverlapWithPeer peerRank).mapM (getRow x) with
  | none => rfl
  | some vals => simp

theorem mapM_getRow_isSome {V : Type} (x : List V) (rows : List Int)
    (h : ∀ d ∈ rows, 0 ≤ d ∧ d < x.length) : ∃ vals, rows.mapM (getRow x) = some vals := by
  induction rows with
  | nil => exact ⟨[], by rw [List.mapM_nil]; rfl⟩
  | cons r rs ih =>
    obtain ⟨hr, hrs⟩ := List.forall_mem_cons.mp h
    obtain ⟨v, hv⟩ := getRow_isSome x r hr.1 hr.2
    obtain ⟨vals, hvals⟩ := ih hrs
    exact ⟨v :: vals, by rw [List.mapM_cons, hv, hvals]; rfl⟩

theorem sends_isSome {V : Type} [AddCommMonoid V] (o : Overlap) (x : List V) (peers : List Int)
    (h : ∀ p ∈ peers, ∀ d ∈ o.domesticOverlapWithPeer p, 0 ≤ d ∧ d < x.length) :
    ∃ sent, peers.mapM (fun peerRank => (sendEntries_ o x peerRank).map fun m => (peerRank, m))
      = some sent := by
  induction peers with
  | nil => exact ⟨[], by rw [List.mapM_nil]; rfl⟩
  | cons p ps ih =>
    obtain ⟨hp, hps⟩ := List.forall_mem_cons.mp h
    obtain ⟨vals, hvals⟩ := mapM_getRow_isSome x _ hp
    obtain ⟨sent, hsent⟩ := ih hps
    exact ⟨_ :: sent, by rw [List.mapM_cons, sendEntries__eq, hvals, hsent]; rfl⟩

theorem getRow_natCast {V : Type} (x : List V) (i : Nat) : getRow x (i : Int) = x[i]? := by
  simp [getRow]

theorem setRow_natCast {V : Type} (x : List V) (i : Nat) (v : V) (h : i < x.length) :
    setRow x (i : Int) v = some (x.set i v) := by
  simp [setRow, h]

/-- A loop that overwrites rows `s, s+1, …, s+n-1`. -/
theorem fill_fold {V : Type} (g : Nat → Option V) (f : Nat → V) (n s : Nat) (x : List V)
    (hg : ∀ i, s ≤ i → i < s + n → g i = some (f i)) (hlen : s + n ≤ x.length) :
    (List.range' s n).foldlM (fun acc (i : Nat) => (g i).bind fun v => setRow acc (i : Int) v) x
      = some (x.take s ++ (List.range' s n).map f ++ x.drop (s + n)) := by
  induction n generalizing s x with
  | zero => simp
  | succ n ih =>
    rw [List.range'_succ, List.foldlM_cons, hg s (Nat.le_refl s) (by omega)]
    simp only [Option.some_bind, Option.bind_eq_bind]
    rw [setRow_natCast x s _ (by omega)]
    simp only [Option.some_bind]
    rw [ih (s + 1) (x.set s (f s)) (fun i h1 h2 => hg i (by omega) (by omega))
      (by simp; omega)]
    rw [take_succ_set x s _ (by omega), List.drop_set_of_lt _ _ (by omega)]
    simp [Nat.add_assoc, Nat.add_comm 1 n]

theorem map_range'_getD {V : Type} (l : List V) (d : V) (n : Nat) (h : n ≤ l.length) :
    (List.range' 0 n).map (fun i => l[i]?.getD d) = l.take n := by
  apply List.ext_getElem?
  intro i
  by_cases hi : i < n
  · have hil : i < l.length := by omega
    simp [List.getElem?_take, hi, List.getElem?_range', List.getElem?_eq_getElem hil]
  · simp [List.getElem?_take, hi, List.getElem?_range']
    omega

theorem modify_fold {V : Type} (h : Nat → V → V) (n s : Nat) (x : List V)
    (hlen : s + n ≤ x.length) :
    ∃ y, (List.range' s n).foldlM
        (fun acc (i : Nat) => (getRow acc (i : Int)).bind fun v => setRow acc (i : Int) (h i v)) x
        = some y ∧ y.length = x.length ∧
      ∀ i, y[i]? = if s ≤ i ∧ i < s + n then x[i]?.map (h i) else x[i]? := by
  induction n generalizing s x with
  | zero =>
    refine ⟨x, by simp, rfl, ?_⟩
    intro i
    have : ¬ (s ≤ i ∧ i < s + 0) := by omega
    rw [if_neg this]
  | succ n ih =>
    have hs : s < x.length := by omega
    obtain ⟨y, hy, hlen2, hrow⟩ := ih (s + 1) (x.set s (h s x[s]))
      (by rw [List.length_set]; omega)
    refine ⟨y, ?_, by simpa using hlen2, ?_⟩
    · rw [List.range'_succ, List.foldlM_cons, getRow_natCast, List.getElem?_eq_getElem hs]
      simp only [Option.some_bind, Option.bind_eq_bind]
      rw [setRow_natCast x s _ hs]
      simpa using hy
    · intro i
      rw [hrow i]
      by_cases his : i = s
      · subst his
        simp [List.getElem?_set_self hs, List.getElem?_eq_getElem hs]
      · have : ¬ s = i := fun h => his h.symm
        simp only [List.getElem?_set, this, if_false]
        by_cases hin : s + 1 ≤ i ∧ i < s + 1 + n
        · have : s ≤ i ∧ i < s + (n + 1) := by omega
          simp [hin, this]
        · have : ¬ (s ≤ i ∧ i < s + (n + 1)) := by omega
          simp [hin, this]

theorem pair_fold_eq {V : Type} (l : List Nat) (self nbv : List V) :
    l.foldlM
      (fun (st : List V × List V) (rowIdx : Nat) =>
        (getRow st.1 rowIdx).bind fun v => (setRow st.2 rowIdx v).map fun nbv1 => (st.1, nbv1))
      (self, nbv)
    = (l.foldlM (fun acc (rowIdx : Nat) => (getRow self rowIdx).bind fun v => setRow acc rowIdx v)
        nbv).map fun nbv1 => (self, nbv1) := by
  induction l generalizing nbv with
  | nil => simp
  | cons i l ih =>
    rw [List.foldlM_cons, List.foldlM_cons]
    dsimp only
    cases getRow self i with
    | none => simp
    | some v =>
      simp only [Option.some_bind, Option.bind_eq_bind]
      cases setRow nbv i v with
      | none => simp
      | some nbv1 => simpa using ih nbv1

theorem assignTo_eq {V : Type} [AddCommMonoid V] (o : Overlap) (self nbv : List V)
    (h1 : o.numLocal ≤ self.length) (h2 : o.numLocal ≤ nbv.length) :
    assignTo o self nbv = some (self, self.take o.numLocal ++ nbv.drop o.numLocal) := by
  unfold assignTo
  simp only []
  rw [pair_fold_eq, List.range_eq_range',
    fill_fold (fun i => getRow self (i : Int)) (fun i => self[i]?.getD 0) o.numLocal 0 nbv
      (fun i _ hi => by
        have : i < self.length := by omega
        simp [getRow_natCast, List.getElem?_eq_getElem this])
      (by omega)]
  simp [map_range'_getD self 0 o.numLocal h1]

theorem map_range'_const {β : Type} (b : β) (s n : Nat) :
    (List.range' s n).map (fun _ => b) = List.replicate n b := by
  induction n generalizing s with
  | zero => simp
  | succ n ih => simp [List.range'_succ, List.replicate_succ, ih]

theorem assignRows_eq {V : Type} [AddCommMonoid V] (o : Overlap) (self nbv : List V) (hLD : o.numLocal ≤ o.numDomestic)
    (hv : o.numLocal ≤ nbv.length) (hself : self.length = o.numDomestic) :
    assignRows o self nbv
      = some (nbv.take o.numLocal ++ List.replicate (o.numDomestic - o.numLocal) 0) := by
  have h1 := fill_fold (fun i => getRow nbv (i : Int)) (fun i => nbv[i]?.getD 0) o.numLocal 0 self
    (fun i _ hi => by
      have : i < nbv.length := by omega
      simp [getRow_natCast, List.getElem?_eq_getElem this])
    (by omega)
  rw [map_range'_getD nbv 0 o.numLocal hv] at h1
  simp only [List.take_zero, List.nil_append, Nat.zero_add] at h1
  have hlen1 : (nbv.take o.numLocal ++ self.drop o.numLocal).length = o.numDomestic := by
    simp [List.length_take, List.length_drop]
    omega
  have h2 := fill_fold (fun _ => some (0 : V)) (fun _ => (0 : V)) (o.numDomestic - o.numLocal)
    o.numLocal (nbv.take o.numLocal ++ self.drop o.numLocal) (fun _ _ _ => rfl) (by omega)
  simp only [Option.some_bind] at h2
  have hdrop : (nbv.take o.numLocal ++ self.drop o.numLocal).drop
      (o.numLocal + (o.numDomestic - o.numLocal)) = [] := by
    apply List.drop_eq_nil_of_le
    omega
  have htake : (nbv.take o.numLocal ++ self.drop o.numLocal).take o.numLocal
      = nbv.take o.numLocal := by
    rw [List.take_append_of_le_length (by simp [List.length_take]; omega)]
    simp
  rw [hdrop, htake, map_range'_const, List.append_nil] at h2
  unfold assignRows
  simp only []
  rw [← List.range_eq_range'] at h1
  rw [h1]
  simp only []
  exact h2

theorem foldlM_inv {σ α : Type} (f : σ → α → Option σ) (P : σ → Prop) (Q : α → Prop)
    (hstep : ∀ s a s1, P s → f s a = some s1 → P s1 ∧ Q a) (l : List α) (s0 s : σ)
    (h0 : P s0) (h : l.foldlM f s0 = some s) : P s ∧ ∀ a ∈ l, Q a := by
  induction l generalizing s0 with
  | nil =>
    simp only [List.foldlM_nil, Option.pure_def, Option.some.injEq] at h
    subst h
    exact ⟨h0, by simp⟩
  | cons a l ih =>
    rw [List.foldlM_cons] at h
    cases hfa : f s0 a with
    | none => simp [hfa] at h
    | some s1 =>
      simp only [hfa, Option.bind_eq_bind, Option.some_bind] at h
      obtain ⟨hP1, hQa⟩ := hstep s0 a s1 h0 hfa
      obtain ⟨hP, hQ⟩ := ih s1 hP1 h
      exact ⟨hP, List.forall_mem_cons.mpr ⟨hQa, hQ⟩⟩

theorem mapM_some_all {α β : Type} (f : α → Option β) (l : List α) (r : List β)
    (h : l.mapM f = some r) : ∀ a ∈ l, ∃ b, f a = some b := by
  induction l generalizing r with
  | nil => simp
  | cons a l ih =>
    rw [List.mapM_cons] at h
    cases hfa : f a with
    | none => simp [hfa] at h
    | some b =>
      cases hl : l.mapM f with
      | none =>
        rw [hfa, hl] at h
        cases h
      | some r1 =>
        intro x hx
        rcases List.mem_cons.mp hx with hx | hx
        · exact ⟨b, by rw [hx, hfa]⟩
        · exact ih r1 hl x hx

theorem getRow_some_range {V : Type} (x : List V) (d : Int) (v : V) (h : getRow x d = some v) :
    0 ≤ d ∧ d < (x.length : Int) := by
  unfold getRow at h
  split at h
  · next h0 =>
    have := (List.getElem?_eq_some_iff.mp h).1
    exact ⟨h0, by omega⟩
  · cases h

theorem setRow_some_length {V : Type} (x y : List V) (d : Int) (v : V)
    (h : setRow x d v = some y) : y.length = x.length := by
  unfold setRow at h
  split at h
  · simp only [Option.some.injEq] at h
    rw [← h, List.length_set]
  · cases h

theorem receiveAddStep_some {V : Type} [AddCommMonoid V] (o : Overlap) (is : List Int)
    (vs : List V) (s s1 : List V) (j : Nat) (h : receiveAddStep o is vs s j = some s1) :
    s1.length = s.length ∧
      ∃ g v, is[j]? = some g ∧ vs[j]? = some v ∧
        0 ≤ o.globalToDomestic g ∧ o.globalToDomestic g < (s.length : Int) := by
  unfold receiveAddStep at h
  split at h
  · next g v hg hv =>
    simp only [] at h
    split at h
    · next old hold =>
      exact ⟨setRow_some_length _ _ _ _ h, g, v, hg, hv, getRow_some_range _ _ _ hold⟩
    · cases h
  · cases h

theorem receiveAddEntries__defined {V : Type} [AddCommMonoid V] (o : Overlap) (x y : List V)
    (m : PeerMsg V) (h : receiveAddEntries_ o x (some m) = some y) :
    y.length = x.length ∧ m.indices.length = m.numOverlapRows ∧
      m.values.length = m.numOverlapRows ∧
      ∀ g ∈ m.indices, 0 ≤ o.globalToDomestic g ∧ o.globalToDomestic g < (x.length : Int) := by
  unfold receiveAddEntries_ mpiRecv at h
  simp only [] at h
  by_cases h1 : m.indices.length ≤ m.numOverlapRows
  · by_cases h2 : m.values.length ≤ m.numOverlapRows
    · simp only [h1, h2, if_true] at h
      obtain ⟨hlen, hall⟩ := foldlM_inv (receiveAddStep o m.indices m.values)
        (fun s => s.length = x.length)
        (fun j => ∃ g v, m.indices[j]? = some g ∧ m.values[j]? = some v ∧
          0 ≤ o.globalToDomestic g ∧ o.globalToDomestic g < (x.length : Int))
        (by
          intro s j s1 hs hstep
          obtain ⟨hl, g, v, hg, hv, hr⟩ := receiveAddStep_some o _ _ s s1 j hstep
          exact ⟨hl.trans hs, g, v, hg, hv, by rw [← hs]; exact hr⟩)
        (List.range m.numOverlapRows) x y rfl h
      have hge : m.numOverlapRows ≤ m.indices.length ∧ m.numOverlapRows ≤ m.values.length := by
        by_cases hz : m.numOverlapRows = 0
        · omega
        · obtain ⟨g, v, hg, hv, -⟩ := hall (m.numOverlapRows - 1) (List.mem_range.mpr (by omega))
          have := (List.getElem?_eq_some_iff.mp hg).1
          have := (List.getElem?_eq_some_iff.mp hv).1
          omega
      refine ⟨hlen, by omega, by omega, ?_⟩
      intro g hg
      obtain ⟨j, hj, hgj⟩ := List.getElem_of_mem hg
      obtain ⟨g2, v, hg2, -, hr⟩ := hall j (List.mem_range.mpr (by omega))
      rw [List.getElem?_eq_getElem hj, hgj] at hg2
      cases hg2
      exact hr
    · simp [h1, h2] at h
  · simp [h1] at h

/-- The method `syncAdd` has defined behaviour exactly when the rows it sends
and the messages it receives are well-formed for the vector. -/
theorem syncAdd_defined_iff {V : Type} [AddCommMonoid V] (o : Overlap) (x : List V)
    (msgs : Int → PeerMsg V) :
    (∃ r, syncAdd o x (fun p => some (msgs p)) = some r)
      ↔ SendRowsIn o x.length ∧ MsgsWellFormed o msgs x.length := by
  constructor
  · rintro ⟨r, hr⟩
    unfold syncAdd at hr
    cases hsent : o.peerSet.mapM
        (fun peerRank => (sendEntries_ o x peerRank).map fun m => (peerRank, m)) with
    | none =>
      rw [hsent] at hr
      cases hr
    | some sent =>
      rw [hsent] at hr
      simp only [] at hr
      cases hy : o.peerSet.foldlM (fun acc p => receiveAddEntries_ o acc (some (msgs p))) x with
      | none => simp [hy] at hr
      | some y =>
        refine ⟨?_, ?_⟩
        · intro p hp d hd
          obtain ⟨b, hb⟩ := mapM_some_all _ _ _ hsent p hp
          rw [sendEntries__eq] at hb
          cases hvals : (o.domesticOverlapWithPeer p).mapM (getRow x) with
          | none =>
            rw [hvals] at hb
            cases hb
          | some vals =>
            obtain ⟨v, hv⟩ := mapM_some_all _ _ _ hvals d hd
            exact getRow_some_range x d v hv
        · exact (foldlM_inv (fun acc p => receiveAddEntries_ o acc (some (msgs p)))
            (fun s => s.length = x.length)
            (fun p => (msgs p).indices.length = (msgs p).numOverlapRows ∧
              (msgs p).values.length = (msgs p).numOverlapRows ∧
              ∀ g ∈ (msgs p).indices,
                0 ≤ o.globalToDomestic g ∧ o.globalToDomestic g < (x.length : Int))
            (by
              intro s p s1 hs hstep
              obtain ⟨hl, hi, hv, hall⟩ := receiveAddEntries__defined o s s1 (msgs p) hstep
              exact ⟨hl.trans hs, hi, hv, by rw [← hs]; exact hall⟩)
            o.peerSet x y rfl hy).2
  · rintro ⟨hsend, hmsgs⟩
    obtain ⟨sent, hsent⟩ := sends_isSome o x o.peerSet hsend
    obtain ⟨y, hy, -, -⟩ := recv_fold_spec o o.peerSet msgs x
      (fun p hp => (hmsgs p hp).1) (fun p hp => (hmsgs p hp).2.1) (fun p hp => (hmsgs p hp).2.2)
    exact ⟨(y, sent), by simp only [syncAdd, hsent, hy, Option.map_some']⟩

section Claims

variable {V : Type} [AddCommMonoid V]

theorem syncAdd_spec (o : Overlap) (x : List V) (msgs : Int → PeerMsg V)
    (hsend : SendRowsIn o x.length) (hmsgs : MsgsWellFormed o msgs x.length) :
    ∃ y sent, syncAdd o x (fun p => some (msgs p)) = some (y, sent) ∧ y.length = x.length ∧
      ∀ d, getRow y d = (getRow x d).map fun a => a + (received o msgs d).sum := by
  obtain ⟨sent, hsent⟩ := sends_isSome o x o.peerSet hsend
  obtain ⟨y, hy, hlen, hrow⟩ := recv_fold_spec o o.peerSet msgs x
    (fun p hp => (hmsgs p hp).1) (fun p hp => (hmsgs p hp).2.1) (fun p hp => (hmsgs p hp).2.2)
  refine ⟨y, sent, ?_, hlen, hrow⟩
  simp only [syncAdd, hsent, hy, Option.map_some']

theorem received_eq_nil {V : Type} (o : Overlap) (msgs : Int → PeerMsg V) (d : Int)
    (h : ∀ p ∈ o.peerSet, ∀ g ∈ (msgs p).indices, o.globalToDomestic g ≠ d) :
    received o msgs d = [] := by
  unfold received
  rw [List.flatMap_eq_nil_iff]
  intro p hp
  unfold receivedFrom
  rw [List.map_eq_nil_iff, List.filter_eq_nil_iff]
  intro iv hiv
  simpa using h p hp iv.1 (List.of_mem_zip hiv).1

/-- C3. After `syncAdd`, every row holds its previous value plus the sum of
all received values whose positionally matching global index maps to the row;
a row that no received index maps to is unchanged. -/
theorem syncAdd_accumulates (o : Overlap) (x : List V) (msgs : Int → PeerMsg V)
    (hsend : SendRowsIn o x.length) (hmsgs : MsgsWellFormed o msgs x.length) :
    ∃ y sent, syncAdd o x (fun p => some (msgs p)) = some (y, sent) ∧ y.length = x.length ∧
      (∀ d xd, getRow x d = some xd → getRow y d = some (xd + (received o msgs d).sum)) ∧
      (∀ d, (∀ p ∈ o.peerSet, ∀ g ∈ (msgs p).indices, o.globalToDomestic g ≠ d) →
        getRow y d = getRow x d) := by
  obtain ⟨y, sent, hy, hlen, hrow⟩ := syncAdd_spec o x msgs hsend hmsgs
  refine ⟨y, sent, hy, hlen, ?_, ?_⟩
  · intro d xd hxd
    rw [hrow d, hxd]
    rfl
  · intro d hd
    rw [hrow d, received_eq_nil o msgs d hd]
    cases getRow x d <;> simp

theorem getElem?_take_append_replicate (v : List V) (nL n : Nat) (hv : nL ≤ v.length) (r : Nat) :
    (v.take nL ++ List.replicate n (0 : V))[r]?
      = if r < nL then v[r]? else if r < nL + n then some 0 else none := by
  have hlen : (v.take nL).length = nL := by simp [List.length_take]; omega
  by_cases hr : r < nL
  · rw [List.getElem?_append_left (by omega), List.getElem?_take]
    simp [hr]
  · rw [List.getElem?_append_right (by omega), hlen, List.getElem?_replicate]
    by_cases hr2 : r < nL + n
    · have : r - nL < n := by omega
      simp [hr, hr2, this]
    · have : ¬ r - nL < n := by omega
      simp [hr, hr2, this]

theorem construct_rows (o : Overlap) (self v : List V) (msgs : Int → PeerMsg V)
    (hLD : o.numLocal ≤ o.numDomestic) (hv : o.numLocal ≤ v.length)
    (hself : self.length = o.numDomestic)
    (hsend : SendRowsIn o o.numDomestic) (hmsgs : MsgsWellFormed o msgs o.numDomestic) :
    ∃ y sent, construct o v (fun p => some (msgs p)) = some (y, sent) ∧
      assignAdd o self v (fun p => some (msgs p)) = some (y, sent) ∧
      y.length = o.numDomestic ∧
      syncAdd o (v.take o.numLocal ++ List.replicate (o.numDomestic - o.numLocal) 0)
        (fun p => some (msgs p)) = some (y, sent) ∧
      (∀ r vr, r < o.numLocal → v[r]? = some vr →
        y[r]? = some (vr + (received o msgs (r : Int)).sum)) ∧
      (∀ r, o.numLocal ≤ r → r < o.numDomestic →
        y[r]? = some (0 + (received o msgs (r : Int)).sum)) := by
  have hx0 : (v.take o.numLocal ++ List.replicate (o.numDomestic - o.numLocal) (0 : V)).length
      = o.numDomestic := by
    simp [List.length_take]
    omega
  obtain ⟨y, sent, hy, hlen, hrow⟩ := syncAdd_spec o
    (v.take o.numLocal ++ List.replicate (o.numDomestic - o.numLocal) 0) msgs
    (by rw [hx0]; exact hsend) (by rw [hx0]; exact hmsgs)
  refine ⟨y, sent, ?_, ?_, by rw [hlen, hx0], hy, ?_, ?_⟩
  · unfold construct assignAdd
    rw [assignRows_eq o _ v hLD hv (by simp)]
    exact hy
  · unfold assignAdd
    rw [assignRows_eq o self v hLD hv hself]
    exact hy
  · intro r vr hr hvr
    have := hrow (r : Int)
    rw [getRow_natCast, getRow_natCast, getElem?_take_append_replicate v _ _ hv r] at this
    rw [this]
    simp [hr, hvr]
  · intro r hr1 hr2
    have := hrow (r : Int)
    rw [getRow_natCast, getRow_natCast, getElem?_take_append_replicate v _ _ hv r] at this
    rw [this]
    have h1 : ¬ r < o.numLocal := by omega
    have h2 : r < o.numLocal + (o.numDomestic - o.numLocal) := by omega
    simp [h1, h2]

theorem assignTo_rows (o : Overlap) (self nbv : List V)
    (hself : o.numLocal ≤ self.length) (hnbv : o.numLocal ≤ nbv.length) :
    ∃ w, assignTo o self nbv = some (self, w) ∧ w.length = nbv.length ∧
      (∀ r, r < o.numLocal → w[r]? = self[r]?) ∧
      (∀ r, o.numLocal ≤ r → w[r]? = nbv[r]?) := by
  have hlen : (self.take o.numLocal).length = o.numLocal := by
    simp [List.length_take]; omega
  refine ⟨self.take o.numLocal ++ nbv.drop o.numLocal, assignTo_eq o self nbv hself hnbv,
    ?_, ?_, ?_⟩
  · simp [List.length_take, List.length_drop]
    omega
  · intro r hr
    rw [List.getElem?_append_left (by omega), List.getElem?_take]
    simp [hr]
  · intro r hr
    rw [List.getElem?_append_right (by omega), hlen, List.getElem?_drop]
    congr 1
    omega

/-- C2. The constructor `construct(v, O)` and `assignAdd(v)` yield a vector of
`numDomestic` rows, equal to `syncAdd` applied to the copied-and-zero-filled
array: an owned row holds `v[r]` plus the values received for it, an overlap
row holds zero plus the values received for it. -/
theorem construct_sums (o : Overlap) (self v : List V) (msgs : Int → PeerMsg V)
    (hLD : o.numLocal ≤ o.numDomestic) (hv : o.numLocal ≤ v.length)
    (hself : self.length = o.numDomestic)
    (hsend : SendRowsIn o o.numDomestic) (hmsgs : MsgsWellFormed o msgs o.numDomestic) :
    ∃ y sent, construct o v (fun p => some (msgs p)) = some (y, sent) ∧
      assignAdd o self v (fun p => some (msgs p)) = some (y, sent) ∧
      y.length = o.numDomestic ∧
      syncAdd o (v.take o.numLocal ++ List.replicate (o.numDomestic - o.numLocal) 0)
        (fun p => some (msgs p)) = some (y, sent) ∧
      (∀ r vr, r < o.numLocal → v[r]? = some vr →
        y[r]? = some (vr + (received o msgs (r : Int)).sum)) ∧
      (∀ r, o.numLocal ≤ r → r < o.numDomestic →
        y[r]? = some (0 + (received o msgs (r : Int)).sum)) :=
  construct_rows o self v msgs hLD hv hself hsend hmsgs

/-- C7. The method `assignTo(nbv)` copies the rows below `numLocal` into
`nbv`, leaves the other entries of `nbv` as they were and leaves the
overlapping vector unchanged. -/
theorem assignTo_frame (o : Overlap) (self nbv : List V)
    (hself : o.numLocal ≤ self.length) (hnbv : o.numLocal ≤ nbv.length) :
    ∃ w, assignTo o self nbv = some (self, w) ∧ w.length = nbv.length ∧
      (∀ r, r < o.numLocal → w[r]? = self[r]?) ∧
      (∀ r, o.numLocal ≤ r → w[r]? = nbv[r]?) :=
  assignTo_rows o self nbv hself hnbv

/-- C1 as amended. After `construct(v, O)` and `assignTo(w)`, an owned row of
`w` holds `v[r]` plus the sum of the values received for that row; it holds
`v[r]` when no received index maps to the row. -/
theorem roundTrip_adds_received (o : Overlap) (v w : List V) (msgs : Int → PeerMsg V)
    (hLD : o.numLocal ≤ o.numDomestic) (hv : o.numLocal ≤ v.length)
    (hw : o.numLocal ≤ w.length)
    (hsend : SendRowsIn o o.numDomestic) (hmsgs : MsgsWellFormed o msgs o.numDomestic) :
    ∃ y sent w1, construct o v (fun p => some (msgs p)) = some (y, sent) ∧
      assignTo o y w = some (y, w1) ∧
      ∀ r vr, r < o.numLocal → v[r]? = some vr →
        w1[r]? = some (vr + (received o msgs (r : Int)).sum) ∧
        ((∀ p ∈ o.peerSet, ∀ g ∈ (msgs p).indices, o.globalToDomestic g ≠ (r : Int)) →
          w1[r]? = some vr) := by
  obtain ⟨y, sent, hy, -, hlen, -, hown, -⟩ :=
    construct_rows o (List.replicate o.numDomestic 0) v msgs hLD hv (by simp) hsend hmsgs
  obtain ⟨w1, hw1, -, hcopy, -⟩ := assignTo_rows o y w (by omega) hw
  refine ⟨y, sent, w1, hy, hw1, ?_⟩
  intro r vr hr hvr
  have h := hown r vr hr hvr
  refine ⟨by rw [hcopy r hr, h], ?_⟩
  intro hno
  rw [hcopy r hr, h, received_eq_nil o msgs (r : Int) hno]
  simp

end Claims

section AverageClaims

variable {V : Type} [Field V]

theorem syncAverage_spec (o : Overlap) (x : List V) (msgs : Int → PeerMsg V)
    (hlen : o.numDomestic ≤ x.length)
    (hsend : SendRowsIn o x.length) (hmsgs : MsgsWellFormed o msgs x.length) :
    ∃ y z sent, syncAdd o x (fun p => some (msgs p)) = some (y, sent) ∧
      syncAverage o x (fun p => some (msgs p)) = some (z, sent) ∧
      y.length = x.length ∧ z.length = x.length ∧
      (∀ d, getRow y d = (getRow x d).map fun a => a + (received o msgs d).sum) ∧
      ∀ i, i < o.numDomestic →
        z[i]? = y[i]?.map fun v => v / ((o.numPeers (i : Int) + 1 : Int) : V) := by
  obtain ⟨y, sent, hy, hylen, hrow⟩ := syncAdd_spec o x msgs hsend hmsgs
  obtain ⟨z, hz, hzlen, hzrow⟩ := modify_fold
    (fun (i : Nat) (v : V) => v / ((o.numPeers (i : Int) + 1 : Int) : V)) o.numDomestic 0 y
    (by omega)
  refine ⟨y, z, sent, hy, ?_, hylen, by rw [hzlen, hylen], hrow, ?_⟩
  · unfold syncAverage
    simp only [hy]
    rw [List.range_eq_range', hz]
    rfl
  · intro i hi
    rw [hzrow i]
    simp [hi]

/-- C4. After `syncAverage`, every domestic row is the row after `syncAdd`
divided by `numPeers(i) + 1`; the row after `syncAdd` is the own value plus
the received values; a row with `numPeers(i) = 0` is the row after `syncAdd`;
the divisor is not zero when `numPeers(i) ≥ 0`. -/
theorem syncAverage_identity [CharZero V] (o : Overlap) (x : List V) (msgs : Int → PeerMsg V)
    (hlen : o.numDomestic ≤ x.length)
    (hsend : SendRowsIn o x.length) (hmsgs : MsgsWellFormed o msgs x.length) :
    ∃ y z sent, syncAdd o x (fun p => some (msgs p)) = some (y, sent) ∧
      syncAverage o x (fun p => some (msgs p)) = some (z, sent) ∧
      ∀ i, i < o.numDomestic →
        ∃ xi yi, x[i]? = some xi ∧ y[i]? = some yi ∧
          yi = xi + (received o msgs (i : Int)).sum ∧
          z[i]? = some (yi / ((o.numPeers (i : Int) + 1 : Int) : V)) ∧
          (o.numPeers (i : Int) = 0 → z[i]? = some yi) ∧
          (0 ≤ o.numPeers (i : Int) → ((o.numPeers (i : Int) + 1 : Int) : V) ≠ 0) := by
  obtain ⟨y, z, sent, hy, hz, hylen, -, hrow, hzrow⟩ := syncAverage_spec o x msgs hlen hsend hmsgs
  refine ⟨y, z, sent, hy, hz, ?_⟩
  intro i hi
  have hix : i < x.length := by omega
  have hyi := hrow (i : Int)
  rw [getRow_natCast, getRow_natCast, List.getElem?_eq_getElem hix] at hyi
  refine ⟨x[i], x[i] + (received o msgs (i : Int)).sum, List.getElem?_eq_getElem hix, hyi, rfl,
    ?_, ?_, ?_⟩
  · rw [hzrow i hi, hyi]
    rfl
  · intro h0
    rw [hzrow i hi, hyi, h0]
    simp
  · intro h0
    have : o.numPeers (i : Int) + 1 ≠ 0 := by omega
    exact_mod_cast this

/-- C5. If a row with `numPeers(r) = k` holds `c` and receives exactly `k`
contributions, each equal to `c`, then `syncAdd` leaves `(k + 1) * c` in the
row and `syncAverage` leaves `c`. -/
theorem uniform_value_sync [CharZero V] (o : Overlap) (x : List V) (msgs : Int → PeerMsg V)
    (hlen : o.numDomestic ≤ x.length)
    (hsend : SendRowsIn o x.length) (hmsgs : MsgsWellFormed o msgs x.length)
    (r : Nat) (hr : r < o.numDomestic) (c : V) (k : Nat)
    (hk : o.numPeers (r : Int) = (k : Int)) (hx : x[r]? = some c)
    (hcount : (received o msgs (r : Int)).length = k)
    (hall : ∀ v ∈ received o msgs (r : Int), v = c) :
    ∃ y z sent, syncAdd o x (fun p => some (msgs p)) = some (y, sent) ∧
      y[r]? = some (((k : V) + 1) * c) ∧
      syncAverage o x (fun p => some (msgs p)) = some (z, sent) ∧
      z[r]? = some c := by
  obtain ⟨y, z, sent, hy, hz, -, -, hrow, hzrow⟩ := syncAverage_spec o x msgs hlen hsend hmsgs
  have hsum : (received o msgs (r : Int)).sum = (k : V) * c := by
    rw [List.sum_eq_card_nsmul _ c hall, hcount, nsmul_eq_mul]
  have hyr : y[r]? = some (((k : V) + 1) * c) := by
    have := hrow (r : Int)
    rw [getRow_natCast, getRow_natCast, hx, hsum] at this
    rw [this]
    simp only [Option.map_some', Option.some.injEq]
    ring
  refine ⟨y, z, sent, hy, hyr, hz, ?_⟩
  rw [hzrow r hr, hyr, hk]
  have hne : ((k : V) + 1) ≠ 0 := by exact_mod_cast Nat.succ_ne_zero k
  simp only [Option.map_some', Option.some.injEq]
  push_cast
  field_simp

end AverageClaims

section TwiceClaims

/-- C6. A second `syncAdd` adds the values received in the second round on
top of the result of the first round; for two processes that share a row and
both hold 1 in it, the row is 2 on both after the first round and 4 on both
after the second, so that `syncAdd` is not idempotent. -/
theorem syncAdd_twice_double_counts :
    (∀ (V : Type) [AddCommMonoid V] (o : Overlap) (x : List V) (msgs1 msgs2 : Int → PeerMsg V),
      SendRowsIn o x.length → MsgsWellFormed o msgs1 x.length →
      MsgsWellFormed o msgs2 x.length →
      ∃ y sent1 z sent2, syncAdd o x (fun p => some (msgs1 p)) = some (y, sent1) ∧
        syncAdd o y (fun p => some (msgs2 p)) = some (z, sent2) ∧
        ∀ d xd, getRow x d = some xd →
          ∃ yd, getRow y d = some yd ∧ yd = xd + (received o msgs1 d).sum ∧
            getRow z d = some (yd + (received o msgs2 d).sum)) ∧
    (∃ w1 w2, syncAddAll [(twoRank0, ([1, 1] : List Int)), (twoRank1, [1, 1])] = some w1 ∧
      syncAddAll w1 = some w2 ∧
      w1.map Prod.snd = [[1, 2], [2, 1]] ∧ w2.map Prod.snd = [[1, 4], [4, 1]] ∧
      w2.map Prod.snd ≠ w1.map Prod.snd) := by
  constructor
  · intro V _ o x msgs1 msgs2 hsend h1 h2
    obtain ⟨y, sent1, hy, hylen, hyrow⟩ := syncAdd_spec o x msgs1 hsend h1
    obtain ⟨z, sent2, hz, -, hzrow⟩ := syncAdd_spec o y msgs2
      (by rw [hylen]; exact hsend) (by rw [hylen]; exact h2)
    refine ⟨y, sent1, z, sent2, hy, hz, ?_⟩
    intro d xd hxd
    refine ⟨xd + (received o msgs1 d).sum, by rw [hyrow d, hxd]; rfl, rfl, ?_⟩
    rw [hzrow d, hyrow d, hxd]
    rfl
  · refine ⟨[(twoRank0, [1, 2]), (twoRank1, [2, 1])], [(twoRank0, [1, 4]), (twoRank1, [4, 1])],
      ?_, ?_, ?_, ?_, ?_⟩
    · rfl
    · rfl
    · rfl
    · rfl
    · decide

end TwiceClaims

/-- C1, the claim as stated fails: process 0 of the two processes that share a
border row is built from `[5, 1]` while process 1 holds `[1, 7]`; the
overlapping vector is `[5, 2]`, and `assignTo` writes back `2`, not `1`, into
the owned row 1. -/
theorem roundTrip_counterexample :
    construct twoRank0 ([5, 1] : List Int) (peerMsgFrom twoRankWorld 0)
      = some ([5, 2], [(1, { numOverlapRows := 1, indices := [1], values := [1] })]) ∧
    assignTo twoRank0 ([5, 2] : List Int) [0, 0] = some ([5, 2], [5, 2]) ∧
    twoRank0.numLocal = 2 ∧
    ([5, 2] : List Int)[1]? ≠ ([5, 1] : List Int)[1]? := by
  decide

/-- C1 as amended, at the two processes that share a border row: the owned row
0, which no received index maps to, is written back as `5`; the owned border
row 1 is written back as `1 + 1`. -/
theorem roundTrip_adds_received_witness :
    SendRowsIn twoRank0 twoRank0.numDomestic ∧
    MsgsWellFormed twoRank0 twoRankMsgs0 twoRank0.numDomestic ∧
    ∃ y sent w1, construct twoRank0 ([5, 1] : List Int) (fun p => some (twoRankMsgs0 p))
        = some (y, sent) ∧
      assignTo twoRank0 y [0, 0] = some (y, w1) ∧ w1[0]? = some 5 ∧ w1[1]? = some 2 := by
  refine ⟨by decide, by decide, ?_⟩
  obtain ⟨y, sent, w1, hy, hw1, hrow⟩ := roundTrip_adds_received twoRank0 ([5, 1] : List Int)
    [0, 0] twoRankMsgs0 (by decide) (by decide) (by decide) (by decide) (by decide)
  refine ⟨y, sent, w1, hy, hw1, ?_, ?_⟩
  · exact (hrow 0 5 (by decide) rfl).2 (by decide)
  · exact (hrow 1 1 (by decide) rfl).1

/-- C2 at process 0 of the line, built from `[3, 4]`: three rows, the owned
ones `3` and `4 + 0`, the overlap row `0 + 10`. -/
theorem construct_sums_witness :
    ∃ y sent, construct line0 ([3, 4] : List Int) (fun p => some (line0Msgs p)) = some (y, sent) ∧
      assignAdd line0 [9, 9, 9] ([3, 4] : List Int) (fun p => some (line0Msgs p))
        = some (y, sent) ∧
      y.length = 3 ∧ y[0]? = some 3 ∧ y[1]? = some 4 ∧ y[2]? = some 10 := by
  obtain ⟨y, sent, hc, ha, hlen, -, hown, hovl⟩ := construct_sums line0 [9, 9, 9]
    ([3, 4] : List Int) line0Msgs (by decide) (by decide) (by decide) (by decide) (by decide)
  exact ⟨y, sent, hc, ha, hlen, hown 0 3 (by decide) rfl, hown 1 4 (by decide) rfl,
    hovl 2 (by decide) (by decide)⟩

/-- C3 at process 0 of the two, holding `[5, 1]` and receiving the pair
`(1, 7)`: row 1 becomes `1 + 7`, row 0 is unchanged. -/
theorem syncAdd_accumulates_witness :
    ∃ y sent, syncAdd twoRank0 ([5, 1] : List Int) (fun p => some (sevenMsg p)) = some (y, sent) ∧
      getRow y 1 = some 8 ∧ getRow y 0 = some 5 := by
  obtain ⟨y, sent, hy, -, hrow, hsame⟩ := syncAdd_accumulates twoRank0 ([5, 1] : List Int)
    sevenMsg (by decide) (by decide)
  refine ⟨y, sent, hy, hrow 1 1 rfl, ?_⟩
  rw [hsame 0 (by decide)]
  rfl

/-- C7 at process 0 of the line: the two owned rows are copied, the entries 2
and 3 of the native vector keep their values. -/
theorem assignTo_frame_witness :
    ∃ w, assignTo line0 ([5, 6, 7] : List Int) [0, 0, 8, 9] = some ([5, 6, 7], w) ∧
      w.length = 4 ∧ w[0]? = some 5 ∧ w[1]? = some 6 ∧ w[2]? = some 8 ∧ w[3]? = some 9 := by
  obtain ⟨w, hw, hlen, hcopy, hkeep⟩ := assignTo_frame line0 ([5, 6, 7] : List Int) [0, 0, 8, 9]
    (by decide) (by decide)
  exact ⟨w, hw, hlen, hcopy 0 (by decide), hcopy 1 (by decide), hkeep 2 (by decide),
    hkeep 3 (by decide)⟩

/-- C4 at process 0 of the line, holding `[4, 6, 8]` and receiving `2` for row
1 and `4` for row 2: `syncAdd` gives `8` and `12` there, `syncAverage` gives
`8 / 2` and `12 / 2`, and row 0, which has no peer, stays `4`. -/
theorem syncAverage_identity_witness :
    ∃ y z sent, syncAdd line0 ([4, 6, 8] : List ℚ) (fun p => some (line0MsgsRat p))
        = some (y, sent) ∧
      syncAverage line0 ([4, 6, 8] : List ℚ) (fun p => some (line0MsgsRat p)) = some (z, sent) ∧
      y[0]? = some 4 ∧ z[0]? = some 4 ∧ y[1]? = some 8 ∧ z[1]? = some 4 ∧
      y[2]? = some 12 ∧ z[2]? = some 6 := by
  obtain ⟨y, z, sent, hy, hz, hrow⟩ := syncAverage_identity line0 ([4, 6, 8] : List ℚ)
    line0MsgsRat (by decide) (by decide) (by decide)
  obtain ⟨x0, y0, hx0, hy0, hs0, hz0, hz0', -⟩ := hrow 0 (by decide)
  obtain ⟨x1, y1, hx1, hy1, hs1, hz1, -, -⟩ := hrow 1 (by decide)
  obtain ⟨x2, y2, hx2, hy2, hs2, hz2, -, -⟩ := hrow 2 (by decide)
  have e0 : x0 = 4 := by simpa using hx0.symm
  have e1 : x1 = 6 := by simpa using hx1.symm
  have e2 : x2 = 8 := by simpa using hx2.symm
  have r0 : received line0 line0MsgsRat ((0 : Nat) : Int) = [] := by decide
  have r1 : received line0 line0MsgsRat ((1 : Nat) : Int) = [2] := by decide
  have r2 : received line0 line0MsgsRat ((2 : Nat) : Int) = [4] := by decide
  rw [e0, r0] at hs0
  rw [e1, r1] at hs1
  rw [e2, r2] at hs2
  have f0 : y0 = 4 := by rw [hs0]; norm_num
  have f1 : y1 = 8 := by rw [hs1]; norm_num
  have f2 : y2 = 12 := by rw [hs2]; norm_num
  have p1 : line0.numPeers ((1 : Nat) : Int) = 1 := by decide
  have p2 : line0.numPeers ((2 : Nat) : Int) = 1 := by decide
  refine ⟨y, z, sent, hy, hz, ?_, ?_, ?_, ?_, ?_, ?_⟩
  · rw [hy0, f0]
  · rw [hz0' (by decide), f0]
  · rw [hy1, f1]
  · rw [hz1, f1, p1]; norm_num
  · rw [hy2, f2]
  · rw [hz2, f2, p2]; norm_num

/-- C5 on the line of three processes with every entry equal to 1: process 1
overlaps both neighbours, its row 0 is shared with process 0 alone, and the
row becomes `2` under `syncAdd` and `1` under `syncAverage`; with integer
entries the whole round evaluates to the vectors shown. -/
theorem uniform_value_sync_witness :
    (∀ p ∈ line1.peerSet, peerMsgFrom lineWorld 1 p = some (lineMsgs1 p)) ∧
    line1.numPeers 0 = 1 ∧
    (∃ y z sent, syncAdd line1 ([1, 1, 1, 1] : List ℚ) (fun p => some (lineMsgs1 p))
        = some (y, sent) ∧ y[0]? = some 2 ∧
      syncAverage line1 ([1, 1, 1, 1] : List ℚ) (fun p => some (lineMsgs1 p))
        = some (z, sent) ∧ z[0]? = some 1) ∧
    (syncAddAll lineWorldInt).map (List.map Prod.snd)
      = some [[1, 2, 2], [2, 2, 2, 2], [2, 1, 2]] := by
  refine ⟨by decide, by decide, ?_, by decide⟩
  obtain ⟨y, z, sent, hy, hyr, hz, hzr⟩ := uniform_value_sync line1 ([1, 1, 1, 1] : List ℚ)
    lineMsgs1 (by decide) (by decide) (by decide) 0 (by decide) 1 1 (by decide) (by decide)
    (by decide) (by decide)
  refine ⟨y, z, sent, hy, ?_, hz, hzr⟩
  rw [hyr]
  norm_num

/-- C6, the general part at process 0 of the two: it holds `[5, 1]` and
receives the pair `(1, 7)` in both rounds; row 1 is `8` after the first round
and `15` after the second. -/
theorem syncAdd_twice_double_counts_witness :
    ∃ y sent1 z sent2, syncAdd twoRank0 ([5, 1] : List Int) (fun p => some (sevenMsg p))
        = some (y, sent1) ∧
      syncAdd twoRank0 y (fun p => some (sevenMsg p)) = some (z, sent2) ∧
      getRow y 1 = some 8 ∧ getRow z 1 = some 15 := by
  obtain ⟨y, sent1, z, sent2, hy, hz, hrow⟩ := syncAdd_twice_double_counts.1 Int twoRank0
    [5, 1] sevenMsg sevenMsg (by decide) (by decide) (by decide)
  obtain ⟨yd, hyd, hsum, hzd⟩ := hrow 1 1 rfl
  have h8 : yd = 8 := by rw [hsum]; decide
  rw [h8] at hyd hzd
  exact ⟨y, sent1, z, sent2, hy, hz, hyd, hzd⟩

end Dumux

namespace Ewoms.Linear

theorem mem_setInsert (a x : Index) (l : List Index) : x ∈ setInsert a l ↔ x = a ∨ x ∈ l := by
  induction l with
  | nil => simp [setInsert]
  | cons b l ih =>
    unfold setInsert
    split
    · simp
    · split
      · rename_i hab
        subst hab
        simp
      · simp only [List.mem_cons, ih]
        tauto

theorem setInsert_idem (a : Index) (l : List Index) :
    setInsert a (setInsert a l) = setInsert a l := by
  induction l with
  | nil => simp [setInsert]
  | cons b l ih =>
    by_cases h1 : a < b
    · simp [setInsert, h1]
    · by_cases h2 : a = b
      · subst h2
        simp [setInsert]
      · simp [setInsert, h1, h2, ih]

theorem setInsert_pairwise (a : Index) (l : List Index) (h : l.Pairwise (· < ·)) :
    (setInsert a l).Pairwise (· < ·) := by
  induction l with
  | nil => simp [setInsert]
  | cons b l ih =>
    obtain ⟨hb, hl⟩ := List.pairwise_cons.mp h
    by_cases h1 : a < b
    · simp only [setInsert, h1, if_true]
      refine List.pairwise_cons.mpr ⟨?_, h⟩
      intro x hx
      rcases List.mem_cons.mp hx with hx | hx
      · rw [hx]; exact h1
      · exact lt_trans h1 (hb x hx)
    · by_cases h2 : a = b
      · subst h2
        simpa [setInsert] using h
      · simp only [setInsert, h1, h2, if_false]
        refine List.pairwise_cons.mpr ⟨?_, ih hl⟩
        intro x hx
        rcases (mem_setInsert a x l).mp hx with hx | hx
        · rw [hx]; exact lt_of_le_of_ne (not_lt.mp h1) (Ne.symm h2)
        · exact hb x hx

theorem mapFind_mapAssign_self {K β : Type} [LinearOrder K] (k : K) (v : β) (m : List (K × β)) :
    mapFind k (mapAssign k v m) = some v := by
  induction m with
  | nil => simp [mapAssign, mapFind]
  | cons e m ih =>
    by_cases h1 : k < e.1
    · simp [mapAssign, h1, mapFind]
    · by_cases h2 : k = e.1
      · simp [mapAssign, h1, ← h2, mapFind]
      · simp [mapAssign, h1, h2, mapFind, ih]

theorem mapFind_mapAssign_ne {K β : Type} [LinearOrder K] (k j : K) (v : β) (m : List (K × β))
    (h : j ≠ k) : mapFind j (mapAssign k v m) = mapFind j m := by
  induction m with
  | nil => simp [mapAssign, mapFind, h]
  | cons e m ih =>
    by_cases h1 : k < e.1
    · simp [mapAssign, h1, mapFind, h]
    · by_cases h2 : k = e.1
      · have : j ≠ e.1 := h2 ▸ h
        simp [mapAssign, h1, ← h2, mapFind, h]
      · simp [mapAssign, h1, h2, mapFind, ih]

namespace BlackList

theorem hasIndex_iff (bl : BlackList) (i : Index) :
    bl.hasIndex i = true ↔ i ∈ bl.nativeBlackListedIndices_ := by
  simp [hasIndex, List.count_pos_iff]

/-- C8. After `addIndex(i)`, `hasIndex(i)` holds; a second `addIndex(i)`
leaves the state as it is; `hasIndex(j)` for another index is as before; the
other members are untouched; and when the set is strictly increasing (the
invariant of `std::set`) it stays so, with `i` occurring once. -/
theorem addIndex_set_semantics (bl : BlackList) (i : Index) :
    (bl.addIndex i).hasIndex i = true ∧
    (bl.addIndex i).addIndex i = bl.addIndex i ∧
    (∀ j, j ≠ i → (bl.addIndex i).hasIndex j = bl.hasIndex j) ∧
    (bl.nativeBlackListedIndices_.Pairwise (· < ·) →
      (bl.addIndex i).nativeBlackListedIndices_.Pairwise (· < ·) ∧
      (bl.addIndex i).nativeBlackListedIndices_.count i = 1) := by
  refine ⟨?_, ?_, ?_, ?_⟩
  · rw [hasIndex_iff]
    exact (mem_setInsert i i _).mpr (Or.inl rfl)
  · simp [addIndex, setInsert_idem]
  · intro j hj
    rw [Bool.eq_iff_iff, hasIndex_iff, hasIndex_iff]
    show j ∈ setInsert i _ ↔ _
    rw [mem_setInsert]
    simp [hj]
  · intro h
    have hp := setInsert_pairwise i _ h
    refine ⟨hp, ?_⟩
    have hnd : (setInsert i bl.nativeBlackListedIndices_).Nodup :=
      hp.imp (fun hab => ne_of_lt hab)
    exact List.count_eq_one_of_mem hnd ((mem_setInsert i i _).mpr (Or.inl rfl))

theorem declare_map (bl : BlackList) (c : DeclCall) :
    (bl.declare c).nativeToDomesticMap_ = bl.nativeToDomesticMap_ := by
  cases c <;> rfl

theorem foldl_declare_map (calls : List DeclCall) (bl : BlackList) :
    (calls.foldl declare bl).nativeToDomesticMap_ = bl.nativeToDomesticMap_ := by
  induction calls generalizing bl with
  | nil => rfl
  | cons c calls ih => rw [List.foldl_cons, ih, declare_map]

theorem setSlot_eq_some {α : Type} (buf : List α) (i : Nat) (v : α) (h : i < buf.length) :
    setSlot buf i v = some (buf.set i v) := by
  simp [setSlot, h]

theorem sendIdx_fold (ov : DomesticOverlap) (l : PeerBlackList) (n s : Nat) (buf : List Index)
    (hlen : buf.length = 2 * l.length) (hs : s + n ≤ l.length) :
    (List.range' s n).foldlM (sendGlobalStep ov l) buf
    = some (buf.take (2 * s) ++ sentPairs ov ((l.drop s).take n) ++ buf.drop (2 * (s + n))) := by
  induction n generalizing s buf with
  | zero => simp [sentPairs]
  | succ n ih =>
    have hsl : s < l.length := by omega
    have hstep : sendGlobalStep ov l buf s
        = some ((buf.set (2 * s) (ov.domesticToGlobal (ov.nativeToDomestic l[s].myOwnNativeIndex))).set
            (2 * s + 1) l[s].nativeIndexOfPeer) := by
      unfold sendGlobalStep
      rw [List.getElem?_eq_getElem hsl]
      simp only [Nat.add_zero]
      rw [setSlot_eq_some buf (2 * s) _ (by omega)]
      simp only []
      rw [setSlot_eq_some _ (2 * s + 1) _ (by rw [List.length_set]; omega)]
    rw [List.range'_succ, List.foldlM_cons, hstep]
    simp only [Option.some_bind, Option.bind_eq_bind]
    rw [ih (s + 1) _ (by simp [hlen]) (by omega)]
    rw [show 2 * (s + 1) = (2 * s + 1) + 1 by ring,
      Dumux.take_succ_set _ (2 * s + 1) _ (by rw [List.length_set]; omega),
      Dumux.take_succ_set buf (2 * s) _ (by omega),
      List.drop_set_of_lt _ _ (by omega), List.drop_set_of_lt _ _ (by omega),
      List.drop_eq_getElem_cons hsl, List.take_succ_cons]
    simp only [sentPairs, List.flatMap_cons, List.append_assoc, List.cons_append,
      List.nil_append, List.singleton_append]
    rw [show s + 1 + n = s + (n + 1) by omega]

theorem sendGlobalIndices__eq (bl : BlackList) (peerRank : ProcessRank) (l : PeerBlackList)
    (ov : DomesticOverlap) :
    sendGlobalIndices_ bl peerRank l ov
      = some
        ({ bl with
            numGlobalIdxSendBuff_ := mapAssign peerRank [l.length] bl.numGlobalIdxSendBuff_
            globalIdxSendBuff_ := mapAssign peerRank (sentPairs ov l) bl.globalIdxSendBuff_ },
          { numIndices := l.length, globalIdx := sentPairs ov l }) := by
  have h := sendIdx_fold ov l l.length 0 (List.replicate (2 * l.length) 0) (by simp) (by omega)
  rw [← List.range_eq_range'] at h
  simp only [Nat.mul_zero, List.take_zero, List.nil_append, List.drop_zero, Nat.zero_add,
    List.take_length] at h
  rw [List.drop_eq_nil_of_le (by simp), List.append_nil] at h
  unfold sendGlobalIndices_
  simp only [h]

theorem sentPairs_eq_flatMap_map (ov : DomesticOverlap) (l : PeerBlackList) :
    sentPairs ov l
      = (l.map fun e =>
          (ov.domesticToGlobal (ov.nativeToDomestic e.myOwnNativeIndex), e.nativeIndexOfPeer)).flatMap
        fun gn => [gn.1, gn.2] := by
  induction l with
  | nil => rfl
  | cons e l ih =>
    unfold sentPairs at ih ⊢
    simp only [List.flatMap_cons, List.map_cons, ih]

theorem recvIdx_fold (ov : DomesticOverlap) (pairs : List (Index × Index)) (bl : BlackList) :
    (List.range pairs.length).foldlM
      (receiveGlobalStep ov (pairs.flatMap fun gn => [gn.1, gn.2])) bl
    = some (pairs.foldl (resolvePair ov) bl) := by
  induction pairs generalizing bl with
  | nil => rfl
  | cons gn pairs ih =>
    simp only [List.length_cons, List.range_succ_eq_map, List.foldlM_cons, List.foldlM_map,
      List.flatMap_cons, List.foldl_cons]
    have h0 : receiveGlobalStep ov ([gn.1, gn.2] ++ pairs.flatMap fun gn => [gn.1, gn.2]) bl 0
        = some (resolvePair ov bl gn) := by
      simp [receiveGlobalStep, resolvePair]
    rw [h0]
    simp only [Option.some_bind, Option.bind_eq_bind]
    have hs : (fun (b : BlackList) (j : Nat) =>
        receiveGlobalStep ov ([gn.1, gn.2] ++ pairs.flatMap fun gn => [gn.1, gn.2]) b (Nat.succ j))
        = receiveGlobalStep ov (pairs.flatMap fun gn => [gn.1, gn.2]) := by
      funext b j
      have e0 : 2 * Nat.succ j + 0 = (2 * j + 0) + 2 := by omega
      have e1 : 2 * Nat.succ j + 1 = (2 * j + 1) + 2 := by omega
      unfold receiveGlobalStep
      rw [e0, e1]
      simp only [List.cons_append, List.nil_append, List.getElem?_cons_succ]
      rfl
    rw [hs]
    exact ih (resolvePair ov bl gn)

theorem length_flatMap_pair (pairs : List (Index × Index)) :
    (pairs.flatMap fun gn => [gn.1, gn.2]).length = 2 * pairs.length := by
  induction pairs with
  | nil => rfl
  | cons gn pairs ih =>
    simp only [List.flatMap_cons, List.length_append, List.length_cons, List.length_nil, ih]
    omega

theorem receiveGlobalIndices__eq (ov : DomesticOverlap) (pairs : List (Index × Index))
    (bl : BlackList) :
    receiveGlobalIndices_ bl ov
        (some { numIndices := pairs.length, globalIdx := pairs.flatMap fun gn => [gn.1, gn.2] })
      = some (pairs.foldl (resolvePair ov) bl) := by
  unfold receiveGlobalIndices_
  simp only [mpiRecv, length_flatMap_pair, le_refl, if_true]
  exact recvIdx_fold ov pairs bl

theorem foldl_resolvePair_fields (ov : DomesticOverlap) (pairs : List (Index × Index))
    (bl : BlackList) :
    (pairs.foldl (resolvePair ov) bl).numGlobalIdxSendBuff_ = bl.numGlobalIdxSendBuff_ ∧
    (pairs.foldl (resolvePair ov) bl).globalIdxSendBuff_ = bl.globalIdxSendBuff_ ∧
    (pairs.foldl (resolvePair ov) bl).peerBlackLists_ = bl.peerBlackLists_ ∧
    (pairs.foldl (resolvePair ov) bl).nativeBlackListedIndices_ = bl.nativeBlackListedIndices_ := by
  induction pairs generalizing bl with
  | nil => exact ⟨rfl, rfl, rfl, rfl⟩
  | cons gn pairs ih =>
    rw [List.foldl_cons]
    exact ih (resolvePair ov bl gn)

theorem mapFind_foldl_resolvePair (ov : DomesticOverlap) (p t : Index)
    (pairs : List (Index × Index)) (bl : BlackList)
    (hsame : ∀ gn ∈ pairs, gn.2 = p → ov.globalToDomestic gn.1 = t)
    (hex : mapFind p bl.nativeToDomesticMap_ = some t ∨ ∃ gn ∈ pairs, gn.2 = p) :
    mapFind p (pairs.foldl (resolvePair ov) bl).nativeToDomesticMap_ = some t := by
  induction pairs generalizing bl with
  | nil =>
    rcases hex with h | ⟨gn, hgn, -⟩
    · exact h
    · cases hgn
  | cons gn pairs ih =>
    rw [List.foldl_cons]
    apply ih
    · intro gn2 h2
      exact hsame gn2 (List.mem_cons_of_mem _ h2)
    · by_cases hp : gn.2 = p
      · left
        show mapFind p (mapAssign gn.2 _ _) = some t
        rw [hp, mapFind_mapAssign_self, hsame gn (List.mem_cons_self _ _) hp]
      · rcases hex with h | ⟨gn2, hgn2, hp2⟩
        · left
          show mapFind p (mapAssign gn.2 _ _) = some t
          rw [mapFind_mapAssign_ne _ _ _ _ (Ne.symm hp)]
          exact h
        · right
          rcases List.mem_cons.mp hgn2 with h | h
          · rw [h] at hp2
            exact absurd hp2 hp
          · exact ⟨gn2, h, hp2⟩

theorem sentMessages_single (bl : BlackList) (ov : DomesticOverlap) (peer : ProcessRank)
    (l : PeerBlackList) (h : bl.peerBlackLists_ = [(peer, l)]) :
    sentMessages bl ov = some [(peer, { numIndices := l.length, globalIdx := sentPairs ov l })] := by
  unfold sentMessages sendLoop
  rw [h, List.foldlM_cons, sendGlobalIndices__eq]
  rfl

theorem update_single (bl : BlackList) (ov : DomesticOverlap) (peer : ProcessRank)
    (l : PeerBlackList) (recv : ProcessRank → Option IdxMsg) (pairs : List (Index × Index))
    (h : bl.peerBlackLists_ = [(peer, l)])
    (hr : recv peer
      = some { numIndices := pairs.length, globalIdx := pairs.flatMap fun gn => [gn.1, gn.2] }) :
    updateNativeToDomesticMap bl ov recv
      = some
        (pairs.foldl (resolvePair ov)
          { bl with
            numGlobalIdxSendBuff_ := mapAssign peer [l.length] bl.numGlobalIdxSendBuff_
            globalIdxSendBuff_ := mapAssign peer (sentPairs ov l) bl.globalIdxSendBuff_ },
          [(peer, { numIndices := l.length, globalIdx := sentPairs ov l })]) := by
  unfold updateNativeToDomesticMap sendLoop
  rw [h]
  simp only [List.foldlM_cons, List.foldlM_nil, sendGlobalIndices__eq, Option.map_some',
    Option.bind_eq_bind, Option.some_bind, Option.pure_def, List.nil_append, hr,
    receiveGlobalIndices__eq]
  obtain ⟨h1, h2, -, -⟩ := foldl_resolvePair_fields ov pairs
    { bl with
      numGlobalIdxSendBuff_ := mapAssign peer [l.length] bl.numGlobalIdxSendBuff_
      globalIdxSendBuff_ := mapAssign peer (sentPairs ov l) bl.globalIdxSendBuff_ }
  simp only [h1, h2, mapFind_mapAssign_self, Option.isSome_some, Bool.and_self, List.all_cons,
    List.all_nil, if_true]
  rw [h]

theorem foldl_resolvePair_map (ov : DomesticOverlap) (pairs : List (Index × Index))
    (bl : BlackList) :
    (pairs.foldl (resolvePair ov) bl).nativeToDomesticMap_
      = pairs.foldl (fun m gn => mapAssign gn.2 (ov.globalToDomestic gn.1) m)
          bl.nativeToDomesticMap_ := by
  induction pairs generalizing bl with
  | nil => rfl
  | cons gn pairs ih =>
    rw [List.foldl_cons, List.foldl_cons, ih]
    rfl

theorem nativeToDomestic_after_exchange (ovA ovB : DomesticOverlap) (lB : PeerBlackList)
    (bl : BlackList) (e : PeerBlackListedEntry) (he : e ∈ lB)
    (hsame : ∀ e2 ∈ lB, e2.nativeIndexOfPeer = e.nativeIndexOfPeer →
      e2.myOwnNativeIndex = e.myOwnNativeIndex) :
    ((lB.map fun e =>
        (ovB.domesticToGlobal (ovB.nativeToDomestic e.myOwnNativeIndex),
          e.nativeIndexOfPeer)).foldl (resolvePair ovA) bl).nativeToDomestic e.nativeIndexOfPeer
      = ovA.globalToDomestic (ovB.domesticToGlobal (ovB.nativeToDomestic e.myOwnNativeIndex)) := by
  have h := mapFind_foldl_resolvePair ovA e.nativeIndexOfPeer
    (ovA.globalToDomestic (ovB.domesticToGlobal (ovB.nativeToDomestic e.myOwnNativeIndex)))
    (lB.map fun e =>
      (ovB.domesticToGlobal (ovB.nativeToDomestic e.myOwnNativeIndex), e.nativeIndexOfPeer)) bl
    (by
      intro gn hgn hp
      obtain ⟨e2, he2, rfl⟩ := List.mem_map.mp hgn
      rw [hsame e2 he2 hp])
    (Or.inr ⟨_, List.mem_map.mpr ⟨e, he, rfl⟩, rfl⟩)
  simp only [nativeToDomestic, h]

theorem mapFind_foldl_resolvePair_ne (ov : DomesticOverlap) (n : Index)
    (pairs : List (Index × Index)) (bl : BlackList) (hno : ∀ gn ∈ pairs, gn.2 ≠ n) :
    mapFind n (pairs.foldl (resolvePair ov) bl).nativeToDomesticMap_
      = mapFind n bl.nativeToDomesticMap_ := by
  induction pairs generalizing bl with
  | nil => rfl
  | cons gn pairs ih =>
    rw [List.foldl_cons, ih _ (fun gn2 h2 => hno gn2 (List.mem_cons_of_mem _ h2))]
    show mapFind n (mapAssign gn.2 _ _) = _
    rw [mapFind_mapAssign_ne _ _ _ _ (Ne.symm (hno gn (List.mem_cons_self _ _)))]

theorem updateBoth_eq (rankA rankB : ProcessRank) (blA blB : BlackList)
    (ovA ovB : DomesticOverlap) (lA lB : PeerBlackList)
    (hA : blA.peerBlackLists_ = [(rankB, lA)]) (hB : blB.peerBlackLists_ = [(rankA, lB)]) :
    messageFor (sentMessages blB ovB) rankA
      = some { numIndices := lB.length, globalIdx := sentPairs ovB lB } ∧
    messageFor (sentMessages blA ovA) rankB
      = some { numIndices := lA.length, globalIdx := sentPairs ovA lA } ∧
    updateBoth rankA rankB blA ovA blB ovB
      = some
        ((lB.map fun e =>
            (ovB.domesticToGlobal (ovB.nativeToDomestic e.myOwnNativeIndex),
              e.nativeIndexOfPeer)).foldl (resolvePair ovA)
          { blA with
            numGlobalIdxSendBuff_ := mapAssign rankB [lA.length] blA.numGlobalIdxSendBuff_
            globalIdxSendBuff_ := mapAssign rankB (sentPairs ovA lA) blA.globalIdxSendBuff_ },
        (lA.map fun e =>
            (ovA.domesticToGlobal (ovA.nativeToDomestic e.myOwnNativeIndex),
              e.nativeIndexOfPeer)).foldl (resolvePair ovB)
          { blB with
            numGlobalIdxSendBuff_ := mapAssign rankA [lB.length] blB.numGlobalIdxSendBuff_
            globalIdxSendBuff_ := mapAssign rankA (sentPairs ovB lB) blB.globalIdxSendBuff_ }) := by
  have hsB := sentMessages_single blB ovB rankA lB hB
  have hsA := sentMessages_single blA ovA rankB lA hA
  have hmB : messageFor (sentMessages blB ovB) rankA
      = some { numIndices := lB.length, globalIdx := sentPairs ovB lB } := by
    rw [hsB]
    simp [messageFor, mapFind]
  have hmA : messageFor (sentMessages blA ovA) rankB
      = some { numIndices := lA.length, globalIdx := sentPairs ovA lA } := by
    rw [hsA]
    simp [messageFor, mapFind]
  have huA := update_single blA ovA rankB lA
    (fun p => if p = rankB then messageFor (sentMessages blB ovB) rankA else none)
    (lB.map fun e =>
      (ovB.domesticToGlobal (ovB.nativeToDomestic e.myOwnNativeIndex), e.nativeIndexOfPeer))
    hA (by simp only [if_true, hmB, List.length_map, ← sentPairs_eq_flatMap_map])
  have huB := update_single blB ovB rankA lB
    (fun p => if p = rankA then messageFor (sentMessages blA ovA) rankB else none)
    (lA.map fun e =>
      (ovA.domesticToGlobal (ovA.nativeToDomestic e.myOwnNativeIndex), e.nativeIndexOfPeer))
    hB (by simp only [if_true, hmA, List.length_map, ← sentPairs_eq_flatMap_map])
  exact ⟨hmB, hmA, by simp only [updateBoth, huA, huB]⟩

/-- A process that has declared a list for a peer that has declared none for
it never returns from `updateNativeToDomesticMap`: nothing arrives. -/
theorem updateBoth_blocks (rankA rankB : ProcessRank) (blA blB : BlackList)
    (ovA ovB : DomesticOverlap) (lB : PeerBlackList)
    (hA : blA.peerBlackLists_ = []) (hB : blB.peerBlackLists_ = [(rankA, lB)]) :
    updateBoth rankA rankB blA ovA blB ovB = none := by
  have hsA : sentMessages blA ovA = some [] := by
    unfold sentMessages sendLoop
    rw [hA]
    rfl
  have hB2 : updateNativeToDomesticMap blB ovB
      (fun p => if p = rankA then messageFor (sentMessages blA ovA) rankB else none) = none := by
    unfold updateNativeToDomesticMap sendLoop
    rw [hB]
    simp only [List.foldlM_cons, List.foldlM_nil, sendGlobalIndices__eq, Option.map_some',
      Option.bind_eq_bind, Option.some_bind, Option.pure_def, List.nil_append, if_true, hsA,
      messageFor, mapFind, receiveGlobalIndices_, Option.none_bind]
  unfold updateBoth
  rw [hB2]
  cases updateNativeToDomesticMap blA ovA
    (fun p => if p = rankB then messageFor (sentMessages blB ovB) rankA else none) <;> rfl

/-- C10. Two processes A and B that have each declared a list for the other
both return from `updateNativeToDomesticMap`; each sends the size of its list
and then, per entry in list order, the global index of `myOwnNativeIndex`
followed by `nativeIndexOfPeer`; the receiver assigns the received pairs in
order; and for an entry `(p, m)` of the list of B such that every entry of
the list naming `p` has the same `m`, `A.nativeToDomestic(p)` is
`ovA.globalToDomestic(ovB.domesticToGlobal(ovB.nativeToDomestic(m)))`, and
symmetrically for B. -/
theorem index_reconciliation (rankA rankB : ProcessRank) (blA blB : BlackList)
    (ovA ovB : DomesticOverlap) (lA lB : PeerBlackList)
    (hA : blA.peerBlackLists_ = [(rankB, lA)]) (hB : blB.peerBlackLists_ = [(rankA, lB)]) :
    ∃ A1 B1, updateBoth rankA rankB blA ovA blB ovB = some (A1, B1) ∧
      messageFor (sentMessages blB ovB) rankA
        = some { numIndices := lB.length, globalIdx := sentPairs ovB lB } ∧
      messageFor (sentMessages blA ovA) rankB
        = some { numIndices := lA.length, globalIdx := sentPairs ovA lA } ∧
      A1.nativeToDomesticMap_
        = ((lB.map fun e =>
            (ovB.domesticToGlobal (ovB.nativeToDomestic e.myOwnNativeIndex),
              e.nativeIndexOfPeer)).foldl (resolvePair ovA) blA).nativeToDomesticMap_ ∧
      B1.nativeToDomesticMap_
        = ((lA.map fun e =>
            (ovA.domesticToGlobal (ovA.nativeToDomestic e.myOwnNativeIndex),
              e.nativeIndexOfPeer)).foldl (resolvePair ovB) blB).nativeToDomesticMap_ ∧
      (∀ e ∈ lB,
        (∀ e2 ∈ lB, e2.nativeIndexOfPeer = e.nativeIndexOfPeer →
          e2.myOwnNativeIndex = e.myOwnNativeIndex) →
        A1.nativeToDomestic e.nativeIndexOfPeer
          = ovA.globalToDomestic
              (ovB.domesticToGlobal (ovB.nativeToDomestic e.myOwnNativeIndex))) ∧
      (∀ e ∈ lA,
        (∀ e2 ∈ lA, e2.nativeIndexOfPeer = e.nativeIndexOfPeer →
          e2.myOwnNativeIndex = e.myOwnNativeIndex) →
        B1.nativeToDomestic e.nativeIndexOfPeer
          = ovB.globalToDomestic
              (ovA.domesticToGlobal (ovA.nativeToDomestic e.myOwnNativeIndex))) := by
  obtain ⟨hmB, hmA, h⟩ := updateBoth_eq rankA rankB blA blB ovA ovB lA lB hA hB
  refine ⟨_, _, h, hmB, hmA, ?_, ?_, ?_, ?_⟩
  · rw [foldl_resolvePair_map, foldl_resolvePair_map]
  · rw [foldl_resolvePair_map, foldl_resolvePair_map]
  · intro e he hsame
    exact nativeToDomestic_after_exchange ovA ovB lB _ e he hsame
  · intro e he hsame
    exact nativeToDomestic_after_exchange ovB ovA lA _ e he hsame

/-- C8 on a black list that holds 3 and 5: adding 5 again changes nothing,
adding 4 keeps the set increasing and duplicate-free. -/
theorem addIndex_set_semantics_witness :
    ((empty.addIndex 5).addIndex 3).nativeBlackListedIndices_ = [3, 5] ∧
    (((empty.addIndex 5).addIndex 3).addIndex 5).nativeBlackListedIndices_ = [3, 5] ∧
    ((((empty.addIndex 5).addIndex 3).addIndex 4).nativeBlackListedIndices_.Pairwise (· < ·) ∧
      (((empty.addIndex 5).addIndex 3).addIndex 4).nativeBlackListedIndices_.count 4 = 1) :=
  ⟨by decide, by decide,
    (addIndex_set_semantics ((empty.addIndex 5).addIndex 3) 4).2.2.2 (by decide)⟩

/-- C10 on the two processes of the specification: process 0 owns the global
indices 0 to 4, process 1 owns 5 to 9, and the native index 5 of process 0
corresponds to the native index 9 of process 1.  Process 1 sends the count 1
and the pair `(9, 5)`; process 0 resolves its native index 5 to the domestic
row 5 of the global index 9, process 1 resolves its native index 9 to row 4. -/
theorem index_reconciliation_witness :
    ∃ A1 B1, updateBoth 0 1 reconBlackList0 reconOverlap0 reconBlackList1 reconOverlap1
        = some (A1, B1) ∧
      messageFor (sentMessages reconBlackList1 reconOverlap1) 0
        = some { numIndices := 1, globalIdx := [9, 5] } ∧
      A1.nativeToDomestic 5 = 5 ∧ B1.nativeToDomestic 9 = 4 := by
  obtain ⟨A1, B1, h, hm, -, -, -, hA, hB⟩ := index_reconciliation 0 1 reconBlackList0
    reconBlackList1 reconOverlap0 reconOverlap1
    [{ nativeIndexOfPeer := 9, myOwnNativeIndex := 5 }]
    [{ nativeIndexOfPeer := 5, myOwnNativeIndex := 9 }] rfl rfl
  refine ⟨A1, B1, h, hm, ?_, ?_⟩
  · have h5 := hA { nativeIndexOfPeer := 5, myOwnNativeIndex := 9 } (by decide) (by decide)
    rw [h5]
    decide
  · have h9 := hB { nativeIndexOfPeer := 9, myOwnNativeIndex := 5 } (by decide) (by decide)
    rw [h9]
    decide

end BlackList

end Ewoms.Linear

namespace Dumux

theorem mapM_eq_map_of_some {α β : Type} (f : α → Option β) (g : α → β) (l : List α)
    (r : List β) (h : l.mapM f = some r) (hg : ∀ a ∈ l, ∀ b, f a = some b → g a = b) :
    r = l.map g := by
  induction l generalizing r with
  | nil =>
    rw [List.mapM_nil] at h
    cases h
    rfl
  | cons a l ih =>
    rw [List.mapM_cons] at h
    cases hfa : f a with
    | none =>
      rw [hfa] at h
      cases h
    | some b =>
      cases hl : l.mapM f with
      | none =>
        rw [hfa, hl] at h
        cases h
      | some r1 =>
        rw [hfa, hl] at h
        cases h
        rw [List.map_cons, hg a (List.mem_cons_self _ _) b hfa,
          ih r1 hl (fun a2 h2 => hg a2 (List.mem_cons_of_mem _ h2))]

theorem sendEntries__snapshot {V : Type} [AddCommMonoid V] (o : Overlap) (x : List V)
    (p : Int) (m : PeerMsg V) (h : sendEntries_ o x p = some m) :
    m = snapshotMsg o x p ∧ ∀ d ∈ o.domesticOverlapWithPeer p, ∃ v, getRow x d = some v := by
  rw [sendEntries__eq] at h
  cases hvals : (o.domesticOverlapWithPeer p).mapM (getRow x) with
  | none =>
    rw [hvals] at h
    cases h
  | some vals =>
    rw [hvals] at h
    simp only [Option.map_some', Option.some.injEq] at h
    have hv := mapM_eq_map_of_some (getRow x) (fun d => (getRow x d).getD 0) _ vals hvals
      (by
        intro d _ b hb
        show (getRow x d).getD 0 = b
        rw [hb]
        rfl)
    refine ⟨?_, mapM_some_all _ _ _ hvals⟩
    rw [← h, hv]
    rfl

theorem syncAdd_sent {V : Type} [AddCommMonoid V] (o : Overlap) (x : List V)
    (recv : Int → Option (PeerMsg V)) (y : List V) (sent : List (Int × PeerMsg V))
    (h : syncAdd o x recv = some (y, sent)) :
    sent = o.peerSet.map (fun p => (p, snapshotMsg o x p)) ∧
      ∀ p ∈ o.peerSet, ∀ d ∈ o.domesticOverlapWithPeer p, ∃ v, getRow x d = some v := by
  unfold syncAdd at h
  cases hsent : o.peerSet.mapM
      (fun peerRank => (sendEntries_ o x peerRank).map fun m => (peerRank, m)) with
  | none =>
    rw [hsent] at h
    cases h
  | some sent1 =>
    rw [hsent] at h
    simp only [] at h
    cases hy : o.peerSet.foldlM (fun acc peerRank => receiveAddEntries_ o acc (recv peerRank)) x with
    | none =>
      rw [hy] at h
      cases h
    | some y1 =>
      rw [hy] at h
      simp only [Option.map_some', Option.some.injEq, Prod.mk.injEq] at h
      have hall := mapM_some_all _ _ _ hsent
      refine ⟨?_, ?_⟩
      · rw [← h.2]
        apply mapM_eq_map_of_some _ _ _ _ hsent
        intro p _ b hb
        cases hm : sendEntries_ o x p with
        | none =>
          rw [hm] at hb
          cases hb
        | some m =>
          rw [hm] at hb
          simp only [Option.map_some', Option.some.injEq] at hb
          rw [← hb, (sendEntries__snapshot o x p m hm).1]
      · intro p hp
        obtain ⟨b, hb⟩ := hall p hp
        cases hm : sendEntries_ o x p with
        | none =>
          rw [hm] at hb
          cases hb
        | some m => exact (sendEntries__snapshot o x p m hm).2

/-- C14. The messages `syncAdd` sends are a snapshot: whatever is received,
the message for each peer `p`, in the order of `peerSet`, is the number of
rows of `domesticOverlapWithPeer(p)`, then for each row in order its global
index and the value the row had when `syncAdd` was called; and `syncAdd`
returns these messages whenever the exchange is well-formed. -/
theorem syncAdd_sends_snapshot {V : Type} [AddCommMonoid V] (o : Overlap) (x : List V) :
    (∀ (recv : Int → Option (PeerMsg V)) (y : List V) (sent : List (Int × PeerMsg V)),
      syncAdd o x recv = some (y, sent) →
      sent = o.peerSet.map (fun p => (p, snapshotMsg o x p)) ∧
      ∀ p ∈ o.peerSet,
        (snapshotMsg o x p).numOverlapRows = (o.domesticOverlapWithPeer p).length ∧
        ∀ (i : Nat) (d : Int), (o.domesticOverlapWithPeer p)[i]? = some d →
          (snapshotMsg o x p).indices[i]? = some (o.domesticToGlobal d) ∧
          (snapshotMsg o x p).values[i]? = getRow x d ∧ (getRow x d).isSome = true) ∧
    (∀ msgs : Int → PeerMsg V, SendRowsIn o x.length → MsgsWellFormed o msgs x.length →
      ∃ y, syncAdd o x (fun p => some (msgs p))
        = some (y, o.peerSet.map (fun p => (p, snapshotMsg o x p)))) := by
  constructor
  · intro recv y sent h
    obtain ⟨hsent, hrows⟩ := syncAdd_sent o x recv y sent h
    refine ⟨hsent, ?_⟩
    intro p hp
    refine ⟨rfl, ?_⟩
    intro i d hd
    obtain ⟨v, hv⟩ := hrows p hp d
      (by
        obtain ⟨hi, hdi⟩ := List.getElem?_eq_some_iff.mp hd
        rw [← hdi]
        exact List.getElem_mem hi)
    simp [snapshotMsg, List.getElem?_map, hd, hv]
  · intro msgs hsend hmsgs
    obtain ⟨y, sent, hy, -, -⟩ := syncAdd_spec o x msgs hsend hmsgs
    exact ⟨y, by rw [hy, (syncAdd_sent o x _ y sent hy).1]⟩

/-- C14 at process 0 of the two, holding `[5, 1]` and receiving 7 for row 1:
the vector becomes `[5, 8]`, the message sent to process 1 carries the value
1 that row 1 had when `syncAdd` was called. -/
theorem syncAdd_sends_snapshot_witness :
    syncAdd twoRank0 ([5, 1] : List Int) (fun p => some (sevenMsg p))
      = some ([5, 8], [(1, { numOverlapRows := 1, indices := [1], values := [1] })]) ∧
    ∃ y, syncAdd twoRank0 ([5, 1] : List Int) (fun p => some (sevenMsg p))
      = some (y, twoRank0.peerSet.map (fun p => (p, snapshotMsg twoRank0 [5, 1] p))) :=
  ⟨by decide,
    (syncAdd_sends_snapshot twoRank0 ([5, 1] : List Int)).2 sevenMsg (by decide) (by decide)⟩

theorem wellFormed_of_perm {V : Type} (o : Overlap) (ps2 : List Int)
    (h : o.peerSet.Perm ps2) (msgs : Int → PeerMsg V) (n : Nat) :
    (SendRowsIn o n ∧ MsgsWellFormed o msgs n)
      ↔ (SendRowsIn { o with peerSet := ps2 } n ∧ MsgsWellFormed { o with peerSet := ps2 } msgs n) := by
  unfold SendRowsIn MsgsWellFormed
  constructor
  · rintro ⟨h1, h2⟩
    exact ⟨fun p hp => h1 p (h.mem_iff.mpr hp), fun p hp => h2 p (h.mem_iff.mpr hp)⟩
  · rintro ⟨h1, h2⟩
    exact ⟨fun p hp => h1 p (h.mem_iff.mp hp), fun p hp => h2 p (h.mem_iff.mp hp)⟩

theorem received_sum_perm {V : Type} [AddCommMonoid V] (o : Overlap) (ps2 : List Int)
    (h : o.peerSet.Perm ps2) (msgs : Int → PeerMsg V) (d : Int) :
    (received { o with peerSet := ps2 } msgs d).sum = (received o msgs d).sum := by
  unfold received
  exact (List.Perm.flatMap_right (fun p => receivedFrom o (msgs p) d) h.symm).sum_eq

theorem syncAdd_none_of_not_defined {V : Type} [AddCommMonoid V] (o : Overlap) (x : List V)
    (msgs : Int → PeerMsg V) (h : ¬ (SendRowsIn o x.length ∧ MsgsWellFormed o msgs x.length)) :
    syncAdd o x (fun p => some (msgs p)) = none := by
  cases hs : syncAdd o x (fun p => some (msgs p)) with
  | none => rfl
  | some r => exact absurd ((syncAdd_defined_iff o x msgs).mp ⟨r, hs⟩) h

/-- C15. Two orderings of the same peer set give the same vector after
`syncAdd`, for every vector and every family of received messages (and the
one is defined exactly when the other is). -/
theorem syncAdd_order_irrelevant {V : Type} [AddCommMonoid V] (o : Overlap) (ps2 : List Int)
    (h : o.peerSet.Perm ps2) (x : List V) (msgs : Int → PeerMsg V) :
    (syncAdd o x (fun p => some (msgs p))).map Prod.fst
      = (syncAdd { o with peerSet := ps2 } x (fun p => some (msgs p))).map Prod.fst := by
  by_cases hdef : SendRowsIn o x.length ∧ MsgsWellFormed o msgs x.length
  · have hdef2 := (wellFormed_of_perm o ps2 h msgs x.length).mp hdef
    obtain ⟨y1, s1, hy1, hlen1, hrow1⟩ := syncAdd_spec o x msgs hdef.1 hdef.2
    obtain ⟨y2, s2, hy2, hlen2, hrow2⟩ := syncAdd_spec { o with peerSet := ps2 } x msgs
      hdef2.1 hdef2.2
    rw [hy1, hy2]
    simp only [Option.map_some', Option.some.injEq]
    apply List.ext_getElem?
    intro i
    have e1 := hrow1 (i : Int)
    have e2 := hrow2 (i : Int)
    rw [getRow_natCast] at e1 e2
    rw [e1, e2, received_sum_perm o ps2 h msgs]
  · have hdef2 : ¬ (SendRowsIn { o with peerSet := ps2 } x.length ∧
        MsgsWellFormed { o with peerSet := ps2 } msgs x.length) :=
      fun h2 => hdef ((wellFormed_of_perm o ps2 h msgs x.length).mpr h2)
    rw [syncAdd_none_of_not_defined o x msgs hdef,
      syncAdd_none_of_not_defined { o with peerSet := ps2 } x msgs hdef2]

/-- C15 at process 1 of the line: receiving from process 0 and then from
process 2, or from process 2 and then from process 0, gives `[11, 31, 21, 41]`. -/
theorem syncAdd_order_irrelevant_witness :
    line1.peerSet.Perm [2, 0] ∧
    (syncAdd line1 ([1, 1, 1, 1] : List Int) (fun p => some (line1Msgs p))).map Prod.fst
      = some [11, 31, 21, 41] ∧
    (syncAdd line1Swapped ([1, 1, 1, 1] : List Int) (fun p => some (line1Msgs p))).map Prod.fst
      = some [11, 31, 21, 41] := by
  have hperm : line1.peerSet.Perm [2, 0] := by decide
  have h := syncAdd_order_irrelevant line1 [2, 0] hperm ([1, 1, 1, 1] : List Int) line1Msgs
  have h1 : (syncAdd line1 ([1, 1, 1, 1] : List Int) (fun p => some (line1Msgs p))).map Prod.fst
      = some [11, 31, 21, 41] := by decide
  refine ⟨hperm, h1, ?_⟩
  rw [← h1, h]
  rfl

theorem receiveAdd_long {V : Type} [AddCommMonoid V] (o : Overlap) (x : List V) (m : PeerMsg V)
    (h : m.numOverlapRows < m.indices.length ∨ m.numOverlapRows < m.values.length) :
    receiveAddEntries_ o x (some m) = none ∧ ∀ k, receiveAddPasses o x m k = none := by
  have hrecv : mpiRecv m.numOverlapRows m.indices = none ∨
      mpiRecv m.numOverlapRows m.values = none := by
    rcases h with h | h
    · left
      simp [mpiRecv, Nat.not_le.mpr h]
    · right
      simp [mpiRecv, Nat.not_le.mpr h]
  constructor
  · unfold receiveAddEntries_
    rcases hrecv with hr | hr
    · simp only [hr]
    · simp only [hr]
      cases mpiRecv m.numOverlapRows m.indices <;> rfl
  · intro k
    unfold receiveAddPasses
    rcases hrecv with hr | hr
    · simp only [hr]
    · simp only [hr]
      cases mpiRecv m.numOverlapRows m.indices <;> rfl

theorem receiveAdd_short {V : Type} [AddCommMonoid V] (o : Overlap) (x : List V) (m : PeerMsg V)
    (n : Nat) (hi : m.indices.length = n) (hv : m.values.length = n)
    (hn : n < m.numOverlapRows) :
    receiveAddPasses o x m n
        = receiveAddEntries_ o x
            (some { numOverlapRows := n, indices := m.indices, values := m.values }) ∧
      receiveAddEntries_ o x (some m) = none := by
  constructor
  · unfold receiveAddPasses receiveAddEntries_
    simp only [mpiRecv, hi, hv, Nat.le_of_lt hn, le_refl, if_true, Nat.min_eq_left (Nat.le_of_lt hn)]
  · cases hs : receiveAddEntries_ o x (some m) with
    | none => rfl
    | some y =>
      obtain ⟨-, hlen, -, -⟩ := receiveAddEntries__defined o x y m hs
      omega

end Dumux

namespace Ewoms.Linear

namespace BlackList

theorem receiveGlobalStep_some (ov : DomesticOverlap) (buf : List Index) (bl b : BlackList)
    (i : Nat) (h : receiveGlobalStep ov buf bl i = some b) :
    ∃ g n, buf[2 * i + 0]? = some g ∧ buf[2 * i + 1]? = some n := by
  unfold receiveGlobalStep at h
  split at h
  · next g n hg hn => exact ⟨g, n, hg, hn⟩
  · cases h

theorem receiveGlobalIndices__defined (ov : DomesticOverlap) (bl b : BlackList) (m : IdxMsg)
    (h : receiveGlobalIndices_ bl ov (some m) = some b) :
    m.globalIdx.length = 2 * m.numIndices := by
  unfold receiveGlobalIndices_ mpiRecv at h
  simp only [] at h
  by_cases h1 : m.globalIdx.length ≤ 2 * m.numIndices
  · simp only [h1, if_true] at h
    obtain ⟨-, hall⟩ := Dumux.foldlM_inv (receiveGlobalStep ov m.globalIdx) (fun _ => True)
      (fun i => ∃ g n, m.globalIdx[2 * i + 0]? = some g ∧ m.globalIdx[2 * i + 1]? = some n)
      (fun s i s1 _ hstep => ⟨trivial, receiveGlobalStep_some ov _ s s1 i hstep⟩)
      (List.range m.numIndices) bl b trivial h
    by_cases hz : m.numIndices = 0
    · omega
    · obtain ⟨g, n, -, hn⟩ := hall (m.numIndices - 1) (List.mem_range.mpr (by omega))
      have := (List.getElem?_eq_some_iff.mp hn).1
      omega
  · simp [h1] at h

theorem receiveGlobal_long (ov : DomesticOverlap) (bl : BlackList) (m : IdxMsg)
    (h : 2 * m.numIndices < m.globalIdx.length) :
    receiveGlobalIndices_ bl ov (some m) = none ∧ ∀ k, receiveGlobalPasses bl ov m k = none := by
  have hr : mpiRecv (2 * m.numIndices) m.globalIdx = none := by
    simp [mpiRecv, Nat.not_le.mpr h]
  constructor
  · unfold receiveGlobalIndices_
    simp only [hr]
  · intro k
    unfold receiveGlobalPasses
    simp only [hr]

theorem receiveGlobal_short (ov : DomesticOverlap) (bl : BlackList) (m : IdxMsg)
    (pairs : List (Index × Index)) (hp : m.globalIdx = pairs.flatMap fun gn => [gn.1, gn.2])
    (hn : pairs.length < m.numIndices) :
    receiveGlobalPasses bl ov m pairs.length = some (pairs.foldl (resolvePair ov) bl) ∧
      receiveGlobalIndices_ bl ov (some m) = none := by
  constructor
  · unfold receiveGlobalPasses
    have hle : m.globalIdx.length ≤ 2 * m.numIndices := by
      rw [hp, length_flatMap_pair]
      omega
    simp only [mpiRecv, hle, if_true, Nat.min_eq_left (Nat.le_of_lt hn)]
    rw [hp]
    exact recvIdx_fold ov pairs bl
  · cases hs : receiveGlobalIndices_ bl ov (some m) with
    | none => rfl
    | some b =>
      have := receiveGlobalIndices__defined ov bl b m hs
      rw [hp, length_flatMap_pair] at this
      omega

end BlackList

end Ewoms.Linear

namespace Dumux

/-- C12, the claim as stated fails: a message that announces two entries and
carries one is not refused.  When the second pass of the receive loop is
about to start, row 1 of the vector `[5, 1]` has already been raised by the
received 7, and the resolved map already has the entry of the received pair. -/
theorem protocol_violation_counterexample :
    shortMsg.numOverlapRows ≠ shortMsg.indices.length ∧
    receiveAddPasses twoRank0 ([5, 1] : List Int) shortMsg 1 = some [5, 8] ∧
    2 * Ewoms.Linear.shortIdxMsg.numIndices ≠ Ewoms.Linear.shortIdxMsg.globalIdx.length ∧
    (Ewoms.Linear.BlackList.receiveGlobalPasses Ewoms.Linear.BlackList.empty
        Ewoms.Linear.reconOverlap0 Ewoms.Linear.shortIdxMsg 1).map
      (fun b => b.nativeToDomesticMap_) = some [(5, 5)] := by
  decide

/-- C12 as amended.  Neither receive step compares the announced count with
the payload.  A payload longer than announced does not fit the receive buffer:
the step fails and no pass of the loop runs.  With a payload of `n` entries,
`n` less than announced, the first `n` passes update the vector, or the
resolved map, as a well-formed message of these `n` entries does; pass `n`
reads a slot that was never received and the step has no result. -/
theorem protocol_violation_behaviour :
    (∀ (V : Type) [AddCommMonoid V] (o : Overlap) (x : List V) (m : PeerMsg V),
      (m.numOverlapRows < m.indices.length ∨ m.numOverlapRows < m.values.length) →
      receiveAddEntries_ o x (some m) = none ∧ ∀ k, receiveAddPasses o x m k = none) ∧
    (∀ (V : Type) [AddCommMonoid V] (o : Overlap) (x : List V) (m : PeerMsg V) (n : Nat),
      m.indices.length = n → m.values.length = n → n < m.numOverlapRows →
      (∀ g ∈ m.indices, 0 ≤ o.globalToDomestic g ∧ o.globalToDomestic g < (x.length : Int)) →
      receiveAddEntries_ o x (some m) = none ∧
      ∃ y, receiveAddPasses o x m n = some y ∧
        receiveAddEntries_ o x
          (some { numOverlapRows := n, indices := m.indices, values := m.values }) = some y ∧
        ∀ d, getRow y d = (getRow x d).map fun a => a + (receivedFrom o m d).sum) ∧
    (∀ (ov : Ewoms.Linear.DomesticOverlap) (bl : Ewoms.Linear.BlackList)
      (m : Ewoms.Linear.IdxMsg),
      2 * m.numIndices < m.globalIdx.length →
      Ewoms.Linear.BlackList.receiveGlobalIndices_ bl ov (some m) = none ∧
      ∀ k, Ewoms.Linear.BlackList.receiveGlobalPasses bl ov m k = none) ∧
    (∀ (ov : Ewoms.Linear.DomesticOverlap) (bl : Ewoms.Linear.BlackList)
      (m : Ewoms.Linear.IdxMsg) (pairs : List (Ewoms.Linear.Index × Ewoms.Linear.Index)),
      (m.globalIdx = pairs.flatMap fun gn => [gn.1, gn.2]) → pairs.length < m.numIndices →
      Ewoms.Linear.BlackList.receiveGlobalIndices_ bl ov (some m) = none ∧
      Ewoms.Linear.BlackList.receiveGlobalPasses bl ov m pairs.length
        = some (pairs.foldl (Ewoms.Linear.BlackList.resolvePair ov) bl)) := by
  refine ⟨?_, ?_, ?_, ?_⟩
  · intro V _ o x m h
    exact receiveAdd_long o x m h
  · intro V _ o x m n hi hv hn hall
    obtain ⟨hpass, hnone⟩ := receiveAdd_short o x m n hi hv hn
    obtain ⟨y, hy, -, hrow⟩ := receiveAddEntries__spec o x
      { numOverlapRows := n, indices := m.indices, values := m.values } hi hv hall
    exact ⟨hnone, y, by rw [hpass, hy], hy, hrow⟩
  · intro ov bl m h
    exact Ewoms.Linear.BlackList.receiveGlobal_long ov bl m h
  · intro ov bl m pairs hp hn
    obtain ⟨hpass, hnone⟩ := Ewoms.Linear.BlackList.receiveGlobal_short ov bl m pairs hp hn
    exact ⟨hnone, hpass⟩

/-- C12 as amended, at the two messages: the long one is refused, the short
one has its one entry consumed before the step runs out of payload. -/
theorem protocol_violation_behaviour_witness :
    receiveAddEntries_ twoRank0 ([5, 1] : List Int) (some longMsg) = none ∧
    (receiveAddEntries_ twoRank0 ([5, 1] : List Int) (some shortMsg) = none ∧
      ∃ y, receiveAddPasses twoRank0 ([5, 1] : List Int) shortMsg 1 = some y ∧
        receiveAddEntries_ twoRank0 ([5, 1] : List Int)
          (some { numOverlapRows := 1, indices := shortMsg.indices, values := shortMsg.values })
          = some y ∧
        ∀ d, getRow y d
          = (getRow ([5, 1] : List Int) d).map fun a => a + (receivedFrom twoRank0 shortMsg d).sum) :=
  ⟨(protocol_violation_behaviour.1 Int twoRank0 [5, 1] longMsg (by decide)).1,
    protocol_violation_behaviour.2.1 Int twoRank0 [5, 1] shortMsg 1 rfl rfl (by decide)
      (by decide)⟩

end Dumux

namespace Ewoms.Linear

namespace BlackList

/-- C13, the claim as stated fails: on the black list of process 0 after its
exchange with process 1, `addIndex(7)` changes the black-listed set from `[5]`
to `[5, 7]` and `setPeerList(2, [])` adds a list for process 2. -/
theorem readonly_after_update_counterexample :
    (updateBoth 0 1 reconBlackList0 reconOverlap0 reconBlackList1 reconOverlap1).map
      (fun r =>
        (r.1.nativeBlackListedIndices_, (r.1.addIndex 7).nativeBlackListedIndices_,
          r.1.peerBlackLists_.map Prod.fst,
          ((r.1.setPeerList 2 []).peerBlackLists_).map Prod.fst))
      = some ([5], [5, 7], [1], [1, 2]) := by
  decide

theorem receiveGlobalStep_fields (ov : DomesticOverlap) (buf : List Index) (bl b : BlackList)
    (i : Nat) (h : receiveGlobalStep ov buf bl i = some b) :
    b.nativeBlackListedIndices_ = bl.nativeBlackListedIndices_ ∧
      b.peerBlackLists_ = bl.peerBlackLists_ := by
  unfold receiveGlobalStep at h
  split at h
  · simp only [Option.some.injEq] at h
    rw [← h]
    exact ⟨rfl, rfl⟩
  · cases h

theorem receiveGlobalIndices__fields (ov : DomesticOverlap) (bl b : BlackList)
    (msg : Option IdxMsg) (h : receiveGlobalIndices_ bl ov msg = some b) :
    b.nativeBlackListedIndices_ = bl.nativeBlackListedIndices_ ∧
      b.peerBlackLists_ = bl.peerBlackLists_ := by
  unfold receiveGlobalIndices_ at h
  cases msg with
  | none => cases h
  | some m =>
    simp only [] at h
    cases hbuf : mpiRecv (2 * m.numIndices) m.globalIdx with
    | none =>
      rw [hbuf] at h
      cases h
    | some buf =>
      rw [hbuf] at h
      exact (Dumux.foldlM_inv (receiveGlobalStep ov buf)
        (fun s => s.nativeBlackListedIndices_ = bl.nativeBlackListedIndices_ ∧
          s.peerBlackLists_ = bl.peerBlackLists_)
        (fun _ => True)
        (fun s i s1 hs hstep => by
          obtain ⟨h1, h2⟩ := receiveGlobalStep_fields ov buf s s1 i hstep
          exact ⟨⟨h1.trans hs.1, h2.trans hs.2⟩, trivial⟩)
        (List.range m.numIndices) bl b ⟨rfl, rfl⟩ h).1

theorem update_fields (bl : BlackList) (ov : DomesticOverlap)
    (recv : ProcessRank → Option IdxMsg) (bl2 : BlackList) (sent : List (ProcessRank × IdxMsg))
    (h : updateNativeToDomesticMap bl ov recv = some (bl2, sent)) :
    bl2.nativeBlackListedIndices_ = bl.nativeBlackListedIndices_ ∧
      bl2.peerBlackLists_ = bl.peerBlackLists_ := by
  unfold updateNativeToDomesticMap at h
  cases hsend : sendLoop bl ov with
  | none =>
    rw [hsend] at h
    cases h
  | some st =>
    rw [hsend] at h
    simp only [] at h
    have hst : st.1.nativeBlackListedIndices_ = bl.nativeBlackListedIndices_ ∧
        st.1.peerBlackLists_ = bl.peerBlackLists_ := by
      unfold sendLoop at hsend
      exact (Dumux.foldlM_inv
        (fun (st : BlackList × List (ProcessRank × IdxMsg)) (pl : ProcessRank × PeerBlackList) =>
          (sendGlobalIndices_ st.1 pl.1 pl.2 ov).map fun r => (r.1, st.2 ++ [(pl.1, r.2)]))
        (fun s => s.1.nativeBlackListedIndices_ = bl.nativeBlackListedIndices_ ∧
          s.1.peerBlackLists_ = bl.peerBlackLists_)
        (fun _ => True)
        (fun s pl s1 hs hstep => by
          dsimp only at hstep hs ⊢
          rw [sendGlobalIndices__eq] at hstep
          simp only [Option.map_some', Option.some.injEq] at hstep
          rw [← hstep]
          exact ⟨hs, trivial⟩)
        bl.peerBlackLists_ (bl, []) st ⟨rfl, rfl⟩ hsend).1
    cases hrecv : bl.peerBlackLists_.foldlM
        (fun (b : BlackList) (pl : ProcessRank × PeerBlackList) =>
          receiveGlobalIndices_ b ov (recv pl.1)) st.1 with
    | none =>
      rw [hrecv] at h
      cases h
    | some b =>
      rw [hrecv] at h
      simp only [] at h
      split at h
      · simp only [Option.some.injEq, Prod.mk.injEq] at h
        rw [← h.1]
        have hb := (Dumux.foldlM_inv
          (fun (b : BlackList) (pl : ProcessRank × PeerBlackList) =>
            receiveGlobalIndices_ b ov (recv pl.1))
          (fun s => s.nativeBlackListedIndices_ = bl.nativeBlackListedIndices_ ∧
            s.peerBlackLists_ = bl.peerBlackLists_)
          (fun _ => True)
          (fun s pl s1 hs hstep => by
            obtain ⟨h1, h2⟩ := receiveGlobalIndices__fields ov s s1 _ hstep
            exact ⟨⟨h1.trans hs.1, h2.trans hs.2⟩, trivial⟩)
          bl.peerBlackLists_ st.1 b hst hrecv).1
        exact hb
      · cases h

/-- C13 as amended.  The call `updateNativeToDomesticMap` itself leaves
the black-listed set and the per-peer lists as they were declared.  After it
has run, `addIndex` and `setPeerList` still take effect: `addIndex(i)` makes
`hasIndex(i)` hold and `setPeerList(r, l)` makes `l` the list of `r`.  Neither
changes the resolved map, so `nativeToDomestic` answers as before after any
number of such calls; `addIndex` leaves the per-peer lists and `setPeerList`
leaves the black-listed set as they are. -/
theorem declarations_after_update (bl : BlackList) (ov : DomesticOverlap)
    (recv : ProcessRank → Option IdxMsg) (bl2 : BlackList) (sent : List (ProcessRank × IdxMsg))
    (h : updateNativeToDomesticMap bl ov recv = some (bl2, sent)) :
    (bl2.nativeBlackListedIndices_ = bl.nativeBlackListedIndices_ ∧
      bl2.peerBlackLists_ = bl.peerBlackLists_) ∧
    (∀ calls : List DeclCall,
      (calls.foldl declare bl2).nativeToDomesticMap_ = bl2.nativeToDomesticMap_ ∧
      ∀ n, (calls.foldl declare bl2).nativeToDomestic n = bl2.nativeToDomestic n) ∧
    (∀ i, (bl2.addIndex i).hasIndex i = true ∧
      (bl2.addIndex i).peerBlackLists_ = bl2.peerBlackLists_) ∧
    (∀ r l, mapFind r (bl2.setPeerList r l).peerBlackLists_ = some l ∧
      (bl2.setPeerList r l).nativeBlackListedIndices_ = bl2.nativeBlackListedIndices_) := by
  refine ⟨update_fields bl ov recv bl2 sent h, ?_, ?_, ?_⟩
  · intro calls
    have hmap := foldl_declare_map calls bl2
    exact ⟨hmap, fun n => by unfold nativeToDomestic; rw [hmap]⟩
  · intro i
    refine ⟨?_, rfl⟩
    rw [hasIndex_iff]
    exact (mem_setInsert i i _).mpr (Or.inl rfl)
  · intro r l
    exact ⟨mapFind_mapAssign_self r l bl2.peerBlackLists_, rfl⟩

/-- C13 as amended, on the black list of process 0 after it has received the
pair `(9, 5)` from process 1: native index 5 stays resolved to row 5 after
`addIndex(7)` and `setPeerList(2, [])`. -/
theorem declarations_after_update_witness :
    ∃ bl2 sent,
      updateNativeToDomesticMap reconBlackList0 reconOverlap0
        (fun _ => some { numIndices := 1, globalIdx := [9, 5] }) = some (bl2, sent) ∧
      bl2.nativeToDomestic 5 = 5 ∧
      ([DeclCall.addIndex 7, DeclCall.setPeerList 2 []].foldl declare bl2).nativeToDomestic 5
        = 5 := by
  have hsome : (updateNativeToDomesticMap reconBlackList0 reconOverlap0
      (fun _ => some { numIndices := 1, globalIdx := [9, 5] })).isSome = true := by decide
  obtain ⟨r, hr⟩ := Option.isSome_iff_exists.mp hsome
  have h5 : (updateNativeToDomesticMap reconBlackList0 reconOverlap0
      (fun _ => some { numIndices := 1, globalIdx := [9, 5] })).map
      (fun r => r.1.nativeToDomestic 5) = some 5 := by decide
  rw [hr] at h5
  simp only [Option.map_some', Option.some.injEq] at h5
  obtain ⟨-, hcalls, -, -⟩ := declarations_after_update reconBlackList0 reconOverlap0
    (fun _ => some { numIndices := 1, globalIdx := [9, 5] }) r.1 r.2 hr
  refine ⟨r.1, r.2, hr, h5, ?_⟩
  rw [(hcalls [DeclCall.addIndex 7, DeclCall.setPeerList 2 []]).2 5, h5]

theorem mapFind_mapAssign_isSome {K β : Type} [LinearOrder K] (k j : K) (v : β)
    (m : List (K × β)) :
    (mapFind j (mapAssign k v m)).isSome = true ↔ j = k ∨ (mapFind j m).isSome = true := by
  by_cases h : j = k
  · subst h
    simp [mapFind_mapAssign_self]
  · rw [mapFind_mapAssign_ne k j v m h]
    simp [h]

theorem mapFind_foldl_resolvePair_isSome (ov : DomesticOverlap) (n : Index)
    (pairs : List (Index × Index)) (bl : BlackList) :
    (mapFind n (pairs.foldl (resolvePair ov) bl).nativeToDomesticMap_).isSome = true
      ↔ (mapFind n bl.nativeToDomesticMap_).isSome = true ∨ ∃ gn ∈ pairs, gn.2 = n := by
  induction pairs generalizing bl with
  | nil => simp
  | cons gn pairs ih =>
    rw [List.foldl_cons, ih]
    have hstep : (mapFind n (resolvePair ov bl gn).nativeToDomesticMap_).isSome = true
        ↔ n = gn.2 ∨ (mapFind n bl.nativeToDomesticMap_).isSome = true :=
      mapFind_mapAssign_isSome gn.2 n _ bl.nativeToDomesticMap_
    rw [hstep]
    constructor
    · rintro ((h | h) | ⟨g2, hg2, hn⟩)
      · exact Or.inr ⟨gn, List.mem_cons_self _ _, h.symm⟩
      · exact Or.inl h
      · exact Or.inr ⟨g2, List.mem_cons_of_mem _ hg2, hn⟩
    · rintro (h | ⟨g2, hg2, hn⟩)
      · exact Or.inl (Or.inr h)
      · rcases List.mem_cons.mp hg2 with h2 | h2
        · exact Or.inl (Or.inl (by rw [← hn, h2]))
        · exact Or.inr ⟨g2, h2, hn⟩

/-- C11, the claim as stated fails: process 0 declares its native index 5 to
process 1, while the list of process 1 for process 0 names the native index 6.
Both calls of `updateNativeToDomesticMap` return; the resolved map of process
0 then has an entry for 6, which it never declared, and none for 5, which it
declared and whose exchange has completed. -/
theorem resolved_map_counterexample :
    skewBlackList0.peerBlackLists_
      = [(1, [{ nativeIndexOfPeer := 9, myOwnNativeIndex := 5 }])] ∧
    (updateBoth 0 1 skewBlackList0 reconOverlap0 skewBlackList1 reconOverlap1).map
      (fun r => (r.1.nativeToDomesticMap_, mapFind 6 r.1.nativeToDomesticMap_,
        mapFind 5 r.1.nativeToDomesticMap_))
      = some ([(6, 5)], some 5, none) := by
  decide

/-- The resolved map after the exchange of two processes that have each
declared one list, for the other: process A has an entry for `n` exactly when
the list that process B declared for A has an entry whose `nativeIndexOfPeer`
is `n`; when the two lists mirror each other this is exactly when A declared
`n` as `myOwnNativeIndex` to B. -/
theorem resolved_map_keys (rankA rankB : ProcessRank) (callsA : List DeclCall)
    (blB : BlackList) (ovA ovB : DomesticOverlap) (lA lB : PeerBlackList)
    (hA : (callsA.foldl declare empty).peerBlackLists_ = [(rankB, lA)])
    (hB : blB.peerBlackLists_ = [(rankA, lB)]) :
    (∀ n, mapFind n (callsA.foldl declare empty).nativeToDomesticMap_ = none) ∧
    ∃ A1 B1, updateBoth rankA rankB (callsA.foldl declare empty) ovA blB ovB = some (A1, B1) ∧
      (∀ n, (mapFind n A1.nativeToDomesticMap_).isSome = true
        ↔ ∃ e ∈ lB, e.nativeIndexOfPeer = n) ∧
      ((∀ n, (∃ e ∈ lB, e.nativeIndexOfPeer = n) ↔ ∃ e ∈ lA, e.myOwnNativeIndex = n) →
        ∀ n, (mapFind n A1.nativeToDomesticMap_).isSome = true
          ↔ ∃ e ∈ lA, e.myOwnNativeIndex = n) := by
  have hempty : ∀ n, mapFind n (callsA.foldl declare empty).nativeToDomesticMap_ = none := by
    intro n
    rw [foldl_declare_map]
    rfl
  obtain ⟨-, -, h⟩ := updateBoth_eq rankA rankB (callsA.foldl declare empty) blB ovA ovB lA lB
    hA hB
  have hkeys : ∀ n, (mapFind n
      ((lB.map fun e =>
          (ovB.domesticToGlobal (ovB.nativeToDomestic e.myOwnNativeIndex),
            e.nativeIndexOfPeer)).foldl (resolvePair ovA)
        { (callsA.foldl declare empty) with
          numGlobalIdxSendBuff_ :=
            mapAssign rankB [lA.length] (callsA.foldl declare empty).numGlobalIdxSendBuff_
          globalIdxSendBuff_ :=
            mapAssign rankB (sentPairs ovA lA)
              (callsA.foldl declare empty).globalIdxSendBuff_ }).nativeToDomesticMap_).isSome
        = true ↔ ∃ e ∈ lB, e.nativeIndexOfPeer = n := by
    intro n
    rw [mapFind_foldl_resolvePair_isSome]
    simp only [hempty n, Option.isSome_none, Bool.false_eq_true, false_or, List.mem_map]
    constructor
    · rintro ⟨gn, ⟨e, he, rfl⟩, hn⟩
      exact ⟨e, he, hn⟩
    · rintro ⟨e, he, hn⟩
      exact ⟨_, ⟨e, he, rfl⟩, hn⟩
  refine ⟨hempty, _, _, h, hkeys, ?_⟩
  intro hmirror n
  rw [hkeys n, hmirror n]

/-- The resolved map on the two processes of the specification, whose lists
mirror each other: process 0 has an entry for its native index 5, which it
declared to process 1, and for no other index. -/
theorem resolved_map_keys_two_ranks :
    ∃ A1 B1, updateBoth 0 1 reconBlackList0 reconOverlap0 reconBlackList1 reconOverlap1
        = some (A1, B1) ∧
      (mapFind 5 A1.nativeToDomesticMap_).isSome = true ∧
      ∀ n, (mapFind n A1.nativeToDomesticMap_).isSome = true → n = 5 := by
  obtain ⟨-, A1, B1, h, hkeys, -⟩ := resolved_map_keys 0 1
    [DeclCall.addIndex 5,
      DeclCall.setPeerList 1 [{ nativeIndexOfPeer := 9, myOwnNativeIndex := 5 }]]
    reconBlackList1 reconOverlap0 reconOverlap1
    [{ nativeIndexOfPeer := 9, myOwnNativeIndex := 5 }]
    [{ nativeIndexOfPeer := 5, myOwnNativeIndex := 9 }] rfl rfl
  refine ⟨A1, B1, h, (hkeys 5).mpr ⟨_, List.mem_singleton.mpr rfl, rfl⟩, ?_⟩
  intro n hn
  obtain ⟨e, he, hen⟩ := (hkeys n).mp hn
  rw [List.mem_singleton.mp he] at hen
  exact hen.symm

end BlackList

end Ewoms.Linear
namespace Dumux

/-- A fold whose every successful step adds to a property exactly what the
consumed element contributes. -/
theorem foldlM_keys {σ α : Type} (f : σ → α → Option σ) (K : σ → Prop) (N : α → Prop)
    (hstep : ∀ s a s1, f s a = some s1 → (K s1 ↔ K s ∨ N a)) (l : List α) (s0 s : σ)
    (h : l.foldlM f s0 = some s) : K s ↔ K s0 ∨ ∃ a ∈ l, N a := by
  induction l generalizing s0 with
  | nil =>
    simp only [List.foldlM_nil, Option.pure_def, Option.some.injEq] at h
    subst h
    simp
  | cons a l ih =>
    rw [List.foldlM_cons] at h
    cases hf : f s0 a with
    | none =>
      rw [hf] at h
      cases h
    | some s1 =>
      rw [hf] at h
      simp only [Option.some_bind, Option.bind_eq_bind] at h
      rw [ih s1 h, hstep s0 a s1 hf]
      simp only [List.mem_cons, exists_eq_or_imp, or_assoc]

/-- A fold keeps a quantity that every step keeps unless the consumed
element contributes. -/
theorem foldlM_stable {σ α β : Type} (f : σ → α → Option σ) (v : σ → β) (N : α → Prop)
    (hstep : ∀ s a s1, f s a = some s1 → ¬ N a → v s1 = v s) (l : List α) (s0 s : σ)
    (h : l.foldlM f s0 = some s) (hno : ∀ a ∈ l, ¬ N a) : v s = v s0 := by
  induction l generalizing s0 with
  | nil =>
    simp only [List.foldlM_nil, Option.pure_def, Option.some.injEq] at h
    subst h
    rfl
  | cons a l ih =>
    rw [List.foldlM_cons] at h
    cases hf : f s0 a with
    | none =>
      rw [hf] at h
      cases h
    | some s1 =>
      rw [hf] at h
      simp only [Option.some_bind, Option.bind_eq_bind] at h
      rw [ih s1 h (fun b hb => hno b (List.mem_cons_of_mem _ hb)),
        hstep s0 a s1 hf (hno a (List.mem_cons_self _ _))]

end Dumux

namespace Ewoms.Linear

theorem mem_namesOf (m : IdxMsg) (n : Index) :
    n ∈ namesOf m ↔ ∃ i ∈ List.range m.numIndices, m.globalIdx[2 * i + 1]? = some n := by
  unfold namesOf
  rw [List.mem_filterMap]

namespace BlackList

theorem receiveGlobalStep_keys (ov : DomesticOverlap) (buf : List Index) (bl b : BlackList)
    (i : Nat) (n : Index) (h : receiveGlobalStep ov buf bl i = some b) :
    (mapFind n b.nativeToDomesticMap_).isSome = true
      ↔ (mapFind n bl.nativeToDomesticMap_).isSome = true ∨ buf[2 * i + 1]? = some n := by
  unfold receiveGlobalStep at h
  split at h
  · next g k hg hk =>
    simp only [Option.some.injEq] at h
    rw [← h, hk]
    simp only [Option.some.injEq]
    rw [mapFind_mapAssign_isSome]
    constructor
    · rintro (h1 | h1)
      · exact Or.inr h1.symm
      · exact Or.inl h1
    · rintro (h1 | h1)
      · exact Or.inr h1
      · exact Or.inl h1.symm
  · cases h

theorem receiveGlobalStep_stable (ov : DomesticOverlap) (buf : List Index) (bl b : BlackList)
    (i : Nat) (n : Index) (h : receiveGlobalStep ov buf bl i = some b)
    (hn : ¬ buf[2 * i + 1]? = some n) :
    mapFind n b.nativeToDomesticMap_ = mapFind n bl.nativeToDomesticMap_ := by
  unfold receiveGlobalStep at h
  split at h
  · next g k hg hk =>
    simp only [Option.some.injEq] at h
    rw [← h]
    rw [hk] at hn
    simp only [Option.some.injEq] at hn
    exact mapFind_mapAssign_ne k n _ _ (fun e => hn e.symm)
  · cases h

theorem receiveGlobalIndices__keys (ov : DomesticOverlap) (bl b : BlackList) (m : IdxMsg)
    (n : Index) (h : receiveGlobalIndices_ bl ov (some m) = some b) :
    (mapFind n b.nativeToDomesticMap_).isSome = true
      ↔ (mapFind n bl.nativeToDomesticMap_).isSome = true ∨ n ∈ namesOf m := by
  unfold receiveGlobalIndices_ at h
  simp only [] at h
  unfold mpiRecv at h
  by_cases hlen : m.globalIdx.length ≤ 2 * m.numIndices
  · rw [if_pos hlen] at h
    rw [mem_namesOf]
    exact Dumux.foldlM_keys (receiveGlobalStep ov m.globalIdx)
      (fun s => (mapFind n s.nativeToDomesticMap_).isSome = true)
      (fun i => m.globalIdx[2 * i + 1]? = some n)
      (fun s i s1 hstep => receiveGlobalStep_keys ov m.globalIdx s s1 i n hstep)
      (List.range m.numIndices) bl b h
  · rw [if_neg hlen] at h
    cases h

theorem receiveGlobalIndices__stable (ov : DomesticOverlap) (bl b : BlackList) (m : IdxMsg)
    (n : Index) (h : receiveGlobalIndices_ bl ov (some m) = some b) (hn : n ∉ namesOf m) :
    mapFind n b.nativeToDomesticMap_ = mapFind n bl.nativeToDomesticMap_ := by
  unfold receiveGlobalIndices_ at h
  simp only [] at h
  unfold mpiRecv at h
  by_cases hlen : m.globalIdx.length ≤ 2 * m.numIndices
  · rw [if_pos hlen] at h
    rw [mem_namesOf] at hn
    exact Dumux.foldlM_stable (receiveGlobalStep ov m.globalIdx)
      (fun s => mapFind n s.nativeToDomesticMap_)
      (fun i => m.globalIdx[2 * i + 1]? = some n)
      (fun s i s1 hstep hno => receiveGlobalStep_stable ov m.globalIdx s s1 i n hstep hno)
      (List.range m.numIndices) bl b h
      (fun i hi hname => hn ⟨i, hi, hname⟩)
  · rw [if_neg hlen] at h
    cases h

theorem sendLoop_map (bl : BlackList) (ov : DomesticOverlap)
    (st : BlackList × List (ProcessRank × IdxMsg)) (h : sendLoop bl ov = some st) :
    st.1.nativeToDomesticMap_ = bl.nativeToDomesticMap_ := by
  unfold sendLoop at h
  exact (Dumux.foldlM_inv
    (fun (st : BlackList × List (ProcessRank × IdxMsg)) (pl : ProcessRank × PeerBlackList) =>
      (sendGlobalIndices_ st.1 pl.1 pl.2 ov).map fun r => (r.1, st.2 ++ [(pl.1, r.2)]))
    (fun s => s.1.nativeToDomesticMap_ = bl.nativeToDomesticMap_)
    (fun _ => True)
    (fun s pl s1 hs hstep => by
      dsimp only at hstep hs ⊢
      rw [sendGlobalIndices__eq] at hstep
      simp only [Option.map_some', Option.some.injEq] at hstep
      rw [← hstep]
      exact ⟨hs, trivial⟩)
    bl.peerBlackLists_ (bl, []) st rfl h).1

theorem mem_receivedNames (bl : BlackList) (recv : ProcessRank → Option IdxMsg) (n : Index) :
    n ∈ receivedNames bl recv
      ↔ ∃ pl ∈ bl.peerBlackLists_, ∃ m, recv pl.1 = some m ∧ n ∈ namesOf m := by
  unfold receivedNames
  rw [List.mem_flatMap]
  constructor
  · rintro ⟨pl, hpl, hn⟩
    cases hr : recv pl.1 with
    | none =>
      rw [hr] at hn
      cases hn
    | some m =>
      rw [hr] at hn
      exact ⟨pl, hpl, m, hr, hn⟩
  · rintro ⟨pl, hpl, m, hr, hn⟩
    refine ⟨pl, hpl, ?_⟩
    rw [hr]
    exact hn

theorem update_receive (bl : BlackList) (ov : DomesticOverlap)
    (recv : ProcessRank → Option IdxMsg) (bl2 : BlackList) (sent : List (ProcessRank × IdxMsg))
    (h : updateNativeToDomesticMap bl ov recv = some (bl2, sent)) :
    ∃ bl1, bl1.nativeToDomesticMap_ = bl.nativeToDomesticMap_ ∧
      bl.peerBlackLists_.foldlM
        (fun (b : BlackList) (pl : ProcessRank × PeerBlackList) =>
          receiveGlobalIndices_ b ov (recv pl.1)) bl1 = some bl2 := by
  unfold updateNativeToDomesticMap at h
  cases hsend : sendLoop bl ov with
  | none =>
    rw [hsend] at h
    cases h
  | some st =>
    rw [hsend] at h
    simp only [] at h
    cases hrecv : bl.peerBlackLists_.foldlM
        (fun (b : BlackList) (pl : ProcessRank × PeerBlackList) =>
          receiveGlobalIndices_ b ov (recv pl.1)) st.1 with
    | none =>
      rw [hrecv] at h
      cases h
    | some b =>
      rw [hrecv] at h
      simp only [] at h
      split at h
      · simp only [Option.some.injEq, Prod.mk.injEq] at h
        rw [← h.1]
        exact ⟨st.1, sendLoop_map bl ov st hsend, hrecv⟩
      · cases h

theorem update_keys (bl : BlackList) (ov : DomesticOverlap)
    (recv : ProcessRank → Option IdxMsg) (bl2 : BlackList) (sent : List (ProcessRank × IdxMsg))
    (n : Index) (h : updateNativeToDomesticMap bl ov recv = some (bl2, sent)) :
    (mapFind n bl2.nativeToDomesticMap_).isSome = true
      ↔ (mapFind n bl.nativeToDomesticMap_).isSome = true ∨ n ∈ receivedNames bl recv := by
  obtain ⟨bl1, hmap, hrecv⟩ := update_receive bl ov recv bl2 sent h
  rw [mem_receivedNames, ← hmap]
  exact Dumux.foldlM_keys
    (fun (b : BlackList) (pl : ProcessRank × PeerBlackList) =>
      receiveGlobalIndices_ b ov (recv pl.1))
    (fun s => (mapFind n s.nativeToDomesticMap_).isSome = true)
    (fun pl => ∃ m, recv pl.1 = some m ∧ n ∈ namesOf m)
    (fun s pl s1 hstep => by
      dsimp only at hstep ⊢
      cases hr : recv pl.1 with
      | none =>
        rw [hr] at hstep
        cases hstep
      | some m =>
        rw [hr] at hstep
        rw [receiveGlobalIndices__keys ov s s1 m n hstep]
        simp)
    bl.peerBlackLists_ bl1 bl2 hrecv

theorem update_stable (bl : BlackList) (ov : DomesticOverlap)
    (recv : ProcessRank → Option IdxMsg) (bl2 : BlackList) (sent : List (ProcessRank × IdxMsg))
    (n : Index) (h : updateNativeToDomesticMap bl ov recv = some (bl2, sent))
    (hn : n ∉ receivedNames bl recv) :
    mapFind n bl2.nativeToDomesticMap_ = mapFind n bl.nativeToDomesticMap_ := by
  obtain ⟨bl1, hmap, hrecv⟩ := update_receive bl ov recv bl2 sent h
  rw [mem_receivedNames] at hn
  rw [← hmap]
  exact Dumux.foldlM_stable
    (fun (b : BlackList) (pl : ProcessRank × PeerBlackList) =>
      receiveGlobalIndices_ b ov (recv pl.1))
    (fun s => mapFind n s.nativeToDomesticMap_)
    (fun pl => ∃ m, recv pl.1 = some m ∧ n ∈ namesOf m)
    (fun s pl s1 hstep hno => by
      dsimp only at hstep hno ⊢
      cases hr : recv pl.1 with
      | none =>
        rw [hr] at hstep
        cases hstep
      | some m =>
        rw [hr] at hstep
        exact receiveGlobalIndices__stable ov s s1 m n hstep (fun hmem => hno ⟨m, hr, hmem⟩))
    bl.peerBlackLists_ bl1 bl2 hrecv
    (fun pl hpl hex => hn ⟨pl, hpl, hex⟩)

theorem step_keys (bl0 bl1 : BlackList) (c : Call) (n : Index) (h : step bl0 c = some bl1) :
    (mapFind n bl1.nativeToDomesticMap_).isSome = true
      ↔ (mapFind n bl0.nativeToDomesticMap_).isSome = true ∨ n ∈ receivedBy bl0 c := by
  cases c with
  | declare d =>
    simp only [step, Option.some.injEq] at h
    rw [← h, declare_map]
    simp [receivedBy]
  | update ov recv =>
    simp only [step] at h
    cases hu : updateNativeToDomesticMap bl0 ov recv with
    | none =>
      rw [hu] at h
      cases h
    | some r =>
      rw [hu] at h
      simp only [Option.map_some', Option.some.injEq] at h
      rw [← h]
      exact update_keys bl0 ov recv r.1 r.2 n hu

theorem run_cons (bl0 : BlackList) (c : Call) (cs : List Call) :
    run bl0 (c :: cs) = (step bl0 c).bind fun bl1 => run bl1 cs := by
  unfold run
  rw [List.foldlM_cons]
  rfl

theorem run_keys (calls : List Call) (bl0 bl : BlackList) (n : Index)
    (h : run bl0 calls = some bl) :
    (mapFind n bl.nativeToDomesticMap_).isSome = true
      ↔ (mapFind n bl0.nativeToDomesticMap_).isSome = true ∨ n ∈ namedInRun bl0 calls := by
  induction calls generalizing bl0 with
  | nil =>
    simp only [run, List.foldlM_nil, Option.pure_def, Option.some.injEq] at h
    subst h
    simp [namedInRun]
  | cons c cs ih =>
    rw [run_cons] at h
    cases hs : step bl0 c with
    | none =>
      rw [hs] at h
      cases h
    | some bl1 =>
      rw [hs] at h
      simp only [Option.some_bind] at h
      rw [ih bl1 h, step_keys bl0 bl1 c n hs]
      simp only [namedInRun, hs, List.mem_append, or_assoc]

theorem namedInRun_declare (calls : List DeclCall) (bl0 : BlackList) :
    namedInRun bl0 (calls.map Call.declare) = [] := by
  induction calls generalizing bl0 with
  | nil => rfl
  | cons c cs ih =>
    simp only [List.map_cons, namedInRun, receivedBy, step, List.nil_append]
    exact ih _

theorem run_declare (calls : List DeclCall) (bl0 : BlackList) :
    run bl0 (calls.map Call.declare) = some (calls.foldl declare bl0) := by
  induction calls generalizing bl0 with
  | nil => rfl
  | cons c cs ih =>
    rw [List.map_cons, run_cons]
    simp only [step, Option.some_bind, List.foldl_cons]
    exact ih _

theorem namesOf_pairs (pairs : List (Index × Index)) :
    namesOf { numIndices := pairs.length, globalIdx := pairs.flatMap fun gn => [gn.1, gn.2] }
      = pairs.map Prod.snd := by
  unfold namesOf
  dsimp only
  have hget : ∀ (ps : List (Index × Index)) (i : Nat),
      (ps.flatMap fun gn => [gn.1, gn.2])[2 * i + 1]? = (ps[i]?).map Prod.snd := by
    intro ps
    induction ps with
    | nil => intro i; simp
    | cons p ps ih =>
      intro i
      cases i with
      | zero => simp
      | succ i =>
        have e : 2 * (i + 1) + 1 = (2 * i + 1) + 1 + 1 := by omega
        rw [e]
        simp only [List.flatMap_cons, List.cons_append, List.nil_append,
          List.getElem?_cons_succ]
        exact ih i
  have hfun : (fun i => (pairs.flatMap fun gn => [gn.1, gn.2])[2 * i + 1]?)
      = fun i => (pairs[i]?).map Prod.snd := funext (hget pairs)
  rw [hfun]
  clear hfun hget
  induction pairs with
  | nil => rfl
  | cons p ps ih =>
    rw [List.length_cons, List.range_succ_eq_map, List.filterMap_cons, List.filterMap_map]
    simp only [List.getElem?_cons_zero, Option.map_some', List.map_cons, List.cons.injEq,
      true_and]
    rw [← ih]
    congr 1
    funext i
    simp

theorem namesOf_sent (ov : DomesticOverlap) (l : PeerBlackList) :
    namesOf { numIndices := l.length, globalIdx := sentPairs ov l }
      = l.map fun e => e.nativeIndexOfPeer := by
  have h := namesOf_pairs (l.map fun e =>
    (ov.domesticToGlobal (ov.nativeToDomestic e.myOwnNativeIndex), e.nativeIndexOfPeer))
  rw [List.length_map, ← sentPairs_eq_flatMap_map] at h
  rw [h, List.map_map]
  rfl

/-- C9, the claim as stated fails: process 0 never declares the native index 6,
neither by `addIndex` nor in a list for a peer, while the list of process 1
for process 0 names it.  Both calls of `updateNativeToDomesticMap` return, and
`nativeToDomestic(6)` on process 0 then answers 5, not the sentinel `-1`. -/
theorem unresolved_lookup_counterexample :
    skewBlackList0.hasIndex 6 = false ∧
    (skewBlackList0.peerBlackLists_.all fun pl =>
      pl.2.all fun e => decide (e.myOwnNativeIndex ≠ 6 ∧ e.nativeIndexOfPeer ≠ 6)) = true ∧
    skewBlackList0.nativeToDomestic 6 = -1 ∧
    (updateBoth 0 1 skewBlackList0 reconOverlap0 skewBlackList1 reconOverlap1).map
      (fun r => r.1.nativeToDomestic 6) = some 5 := by
  decide

/-- C9 as amended.  The method `nativeToDomestic(n)` returns `-1` when the
resolved map has no entry for `n`, and the stored domestic index otherwise.
The map has no entry on a fresh black list nor on one reached by `addIndex`
and `setPeerList` calls alone, and in every reachable state it has none for an
index that no received pair has named.  A call of `updateNativeToDomesticMap`
leaves the answer for `n` as it was when no received pair names `n`, and
answers with a stored index when one does, whether or not `n` was declared on
this black list. -/
theorem nativeToDomestic_unresolved :
    (∀ (bl : BlackList) (n : Index),
      mapFind n bl.nativeToDomesticMap_ = none → bl.nativeToDomestic n = -1) ∧
    (∀ (bl : BlackList) (n d : Index),
      mapFind n bl.nativeToDomesticMap_ = some d → bl.nativeToDomestic n = d) ∧
    (∀ n : Index, empty.nativeToDomestic n = -1) ∧
    (∀ (calls : List DeclCall) (n : Index),
      mapFind n (calls.foldl declare empty).nativeToDomesticMap_ = none ∧
      (calls.foldl declare empty).nativeToDomestic n = -1) ∧
    (∀ (rankA rankB : ProcessRank) (blA blB : BlackList) (ovA ovB : DomesticOverlap)
      (lA lB : PeerBlackList) (n : Index),
      blA.peerBlackLists_ = [(rankB, lA)] → blB.peerBlackLists_ = [(rankA, lB)] →
      (∀ e ∈ lB, e.nativeIndexOfPeer ≠ n) →
      ∃ A1 B1, updateBoth rankA rankB blA ovA blB ovB = some (A1, B1) ∧
        A1.nativeToDomestic n = blA.nativeToDomestic n) ∧
    (∀ (bl : BlackList) (ov : DomesticOverlap) (recv : ProcessRank → Option IdxMsg)
      (bl2 : BlackList) (sent : List (ProcessRank × IdxMsg)) (n : Index),
      updateNativeToDomesticMap bl ov recv = some (bl2, sent) →
      n ∉ receivedNames bl recv →
      bl2.nativeToDomestic n = bl.nativeToDomestic n) ∧
    (∀ (bl : BlackList) (ov : DomesticOverlap) (recv : ProcessRank → Option IdxMsg)
      (bl2 : BlackList) (sent : List (ProcessRank × IdxMsg)) (n : Index),
      updateNativeToDomesticMap bl ov recv = some (bl2, sent) →
      n ∈ receivedNames bl recv →
      ∃ d, mapFind n bl2.nativeToDomesticMap_ = some d ∧ bl2.nativeToDomestic n = d) ∧
    (∀ (calls : List Call) (bl : BlackList) (n : Index),
      run empty calls = some bl → n ∉ namedInRun empty calls →
      mapFind n bl.nativeToDomesticMap_ = none ∧ bl.nativeToDomestic n = -1) := by
  refine ⟨?_, ?_, ?_, ?_, ?_, ?_, ?_, ?_⟩
  · intro bl n h
    simp [nativeToDomestic, h]
  · intro bl n d h
    simp [nativeToDomestic, h]
  · intro n
    rfl
  · intro calls n
    have h : mapFind n (calls.foldl declare empty).nativeToDomesticMap_ = none := by
      rw [foldl_declare_map]
      rfl
    exact ⟨h, by simp [nativeToDomestic, h]⟩
  · intro rankA rankB blA blB ovA ovB lA lB n hA hB hno
    obtain ⟨-, -, h⟩ := updateBoth_eq rankA rankB blA blB ovA ovB lA lB hA hB
    refine ⟨_, _, h, ?_⟩
    unfold nativeToDomestic
    rw [mapFind_foldl_resolvePair_ne ovA n _ _ (by
      intro gn hgn
      obtain ⟨e, he, rfl⟩ := List.mem_map.mp hgn
      exact hno e he)]
  · intro bl ov recv bl2 sent n h hn
    unfold nativeToDomestic
    rw [update_stable bl ov recv bl2 sent n h hn]
  · intro bl ov recv bl2 sent n h hn
    have hk := (update_keys bl ov recv bl2 sent n h).mpr (Or.inr hn)
    obtain ⟨d, hd⟩ := Option.isSome_iff_exists.mp hk
    exact ⟨d, hd, by simp [nativeToDomestic, hd]⟩
  · intro calls bl n h hn
    have hk := run_keys calls empty bl n h
    have hnone : mapFind n bl.nativeToDomesticMap_ = none := by
      cases hf : mapFind n bl.nativeToDomesticMap_ with
      | none => rfl
      | some d =>
        rw [hf] at hk
        rcases hk.mp rfl with h0 | h0
        · cases h0
        · exact absurd h0 hn
    exact ⟨hnone, by simp [nativeToDomestic, hnone]⟩

/-- C9 as amended, on process 0.  With the declared, unresolved black list the
answer for 5 is `-1`.  With the list that process 1 declares for the index 6,
the call of `updateNativeToDomesticMap` returns; the answer for the declared
index 5, which no received pair names, is still `-1`, and the index 6 has a
stored answer.  After the run with two peers the index 8, declared after the
exchange, is answered with `-1`. -/
theorem nativeToDomestic_unresolved_witness :
    reconBlackList0.nativeToDomestic 5 = -1 ∧
    (∃ bl2 sent, updateNativeToDomesticMap skewBlackList0 reconOverlap0 skewRecv
        = some (bl2, sent) ∧
      bl2.nativeToDomestic 5 = -1 ∧
      ∃ d, mapFind 6 bl2.nativeToDomesticMap_ = some d ∧ bl2.nativeToDomestic 6 = d) ∧
    (∃ bl, run empty twoPeerCalls = some bl ∧ bl.nativeToDomestic 8 = -1) := by
  refine ⟨(nativeToDomestic_unresolved.2.2.2.1
      [DeclCall.addIndex 5,
        DeclCall.setPeerList 1 [{ nativeIndexOfPeer := 9, myOwnNativeIndex := 5 }]] 5).2, ?_, ?_⟩
  · obtain ⟨r, h⟩ := Option.isSome_iff_exists.mp
      (by decide :
        (updateNativeToDomesticMap skewBlackList0 reconOverlap0 skewRecv).isSome = true)
    exact ⟨r.1, r.2, h,
      (nativeToDomestic_unresolved.2.2.2.2.2.1 skewBlackList0 reconOverlap0 skewRecv r.1 r.2 5 h
        (by decide)).trans (by decide),
      nativeToDomestic_unresolved.2.2.2.2.2.2.1 skewBlackList0 reconOverlap0 skewRecv r.1 r.2 6 h
        (by decide)⟩
  · obtain ⟨bl, h⟩ := Option.isSome_iff_exists.mp
      (by decide : (run empty twoPeerCalls).isSome = true)
    exact ⟨bl, h,
      (nativeToDomestic_unresolved.2.2.2.2.2.2.2 twoPeerCalls bl 8 h (by decide)).2⟩

/-- C11 as amended.  In every state reached from a fresh black list by
`addIndex`, `setPeerList` and returning `updateNativeToDomesticMap` calls, the
resolved map has an entry for `n` exactly when a pair received in one of the
`updateNativeToDomesticMap` calls names `n`; each such call adds exactly the
entries for the indices its received pairs name.  The message a process sends
for a list names the `nativeIndexOfPeer` of every entry of that list.  When
every peer's message names exactly the indices this process declared to that
peer, the named indices are the indices declared to at least one peer.  A
state reached by declarations alone has an empty resolved map. -/
theorem resolved_map_reachable :
    (∀ (calls : List Call) (bl : BlackList) (n : Index),
      run empty calls = some bl →
      ((mapFind n bl.nativeToDomesticMap_).isSome = true ↔ n ∈ namedInRun empty calls)) ∧
    (∀ (bl : BlackList) (ov : DomesticOverlap) (recv : ProcessRank → Option IdxMsg)
      (bl2 : BlackList) (sent : List (ProcessRank × IdxMsg)) (n : Index),
      updateNativeToDomesticMap bl ov recv = some (bl2, sent) →
      ((mapFind n bl2.nativeToDomesticMap_).isSome = true
        ↔ (mapFind n bl.nativeToDomesticMap_).isSome = true ∨ n ∈ receivedNames bl recv)) ∧
    (∀ (bl : BlackList) (peerRank : ProcessRank) (l : PeerBlackList) (ov : DomesticOverlap),
      ∃ bl1 m, sendGlobalIndices_ bl peerRank l ov = some (bl1, m) ∧
        namesOf m = l.map fun e => e.nativeIndexOfPeer) ∧
    (∀ (bl : BlackList) (recv : ProcessRank → Option IdxMsg) (n : Index),
      (∀ pl ∈ bl.peerBlackLists_, ∃ m, recv pl.1 = some m ∧
        ∀ k, k ∈ namesOf m ↔ ∃ e ∈ pl.2, e.myOwnNativeIndex = k) →
      (n ∈ receivedNames bl recv
        ↔ ∃ pl ∈ bl.peerBlackLists_, ∃ e ∈ pl.2, e.myOwnNativeIndex = n)) ∧
    (∀ calls : List DeclCall,
      run empty (calls.map Call.declare) = some (calls.foldl declare empty) ∧
      (calls.foldl declare empty).nativeToDomesticMap_ = []) := by
  refine ⟨?_, ?_, ?_, ?_, ?_⟩
  · intro calls bl n h
    rw [run_keys calls empty bl n h]
    constructor
    · rintro (h0 | h0)
      · cases h0
      · exact h0
    · exact Or.inr
  · intro bl ov recv bl2 sent n h
    exact update_keys bl ov recv bl2 sent n h
  · intro bl peerRank l ov
    exact ⟨_, _, sendGlobalIndices__eq bl peerRank l ov, namesOf_sent ov l⟩
  · intro bl recv n hmirror
    rw [mem_receivedNames]
    constructor
    · rintro ⟨pl, hpl, m, hr, hn⟩
      obtain ⟨m1, hr1, hm1⟩ := hmirror pl hpl
      rw [hr] at hr1
      cases hr1
      exact ⟨pl, hpl, (hm1 n).mp hn⟩
    · rintro ⟨pl, hpl, he⟩
      obtain ⟨m, hr, hm⟩ := hmirror pl hpl
      exact ⟨pl, hpl, m, hr, (hm n).mpr he⟩
  · intro calls
    refine ⟨run_declare calls empty, ?_⟩
    rw [foldl_declare_map]
    rfl

/-- C11 as amended, on process 0 with the two peers 1 and 2.  The run returns,
and its resolved map has an entry exactly for the native indices 5 and 4, which
the pairs received from the two peers name; the index 8, declared by `addIndex`
alone, has none.  After the single call `addIndex(5)` the resolved map has no
entry. -/
theorem resolved_map_reachable_witness :
    (∃ bl, run empty twoPeerCalls = some bl ∧
      ∀ n, (mapFind n bl.nativeToDomesticMap_).isSome = true ↔ n ∈ [5, 4]) ∧
    (∀ n, ¬ (mapFind n (empty.addIndex 5).nativeToDomesticMap_).isSome = true) := by
  refine ⟨?_, ?_⟩
  · obtain ⟨bl, h⟩ := Option.isSome_iff_exists.mp
      (by decide : (run empty twoPeerCalls).isSome = true)
    refine ⟨bl, h, fun n => ?_⟩
    have hnamed : namedInRun empty twoPeerCalls = [5, 4] := by decide
    rw [← hnamed]
    exact resolved_map_reachable.1 twoPeerCalls bl n h
  · intro n
    have h := resolved_map_reachable.1 [Call.declare (DeclCall.addIndex 5)] (empty.addIndex 5) n rfl
    rw [h]
    simp [namedInRun, receivedBy, step]

end BlackList

end Ewoms.Linear
